import Mathlib

/-!
# Verification of the Time-Travel Development timeline engine

Shallow embedding of `TimelineService`
(`frontend/just-built-frontend/src/features/time-travel/TimelineService.ts`).

Modelling decisions, all driven by the source:
* JavaScript `Map` objects (`branches`, `nodes`, `checkpoints`) are embedded as
  association lists with insertion order; `Map.get` is `findA`, `Map.set` is
  `setA` (replace the existing entry in place, otherwise append at the end),
  `Map.size` is the list length (key uniqueness is maintained by construction).
* `uuidv4()` is embedded as a fresh-identifier counter threaded through the
  service state (`nextId`); node and branch identifiers are the natural numbers
  drawn from that counter.  Nothing in the source depends on the identifier
  text, only on freshness, which the counter supplies deterministically.
* `Date` timestamps become natural numbers measured in minutes, and every
  operation that reads the ambient clock (`new Date()`) takes the current time
  as an explicit `now` argument.  The auto-checkpoint computation
  `(now.getTime() - latest.getTime()) / (1000 * 60)` thereby becomes `now -
  latest` directly in minutes; a clock that went backwards yields a negative
  number in JS (never `>=` a positive interval) and `0` under truncated `Nat`
  subtraction (same outcome for any positive interval).
* The `metadata: Record<string, any>` field carries arbitrary dynamic data
  that no operation of the service inspects; it is omitted from the embedding.
* Methods that signal failure by returning `undefined` / `false` return
  `Option` / `Bool` here, paired with the (possibly unchanged) state.
-/

/-! ## Association-list maps (JavaScript `Map` semantics) -/

/-- `Map.get`: the value stored under `k`, searching from the front. -/
def findA {K V : Type} [DecidableEq K] : List (K × V) → K → Option V
  | [], _ => none
  | (k', v) :: rest, k => if k' = k then some v else findA rest k

/-- `Map.set`: replace the entry for `k` in place if present, else append. -/
def setA {K V : Type} [DecidableEq K] : List (K × V) → K → V → List (K × V)
  | [], k, v => [(k, v)]
  | (k', v') :: rest, k, v =>
      if k' = k then (k, v) :: rest else (k', v') :: setA rest k v

/-- The keys of an association list, in order. -/
def keysA {K V : Type} (m : List (K × V)) : List K := m.map Prod.fst

/-! ## Data model (`TimelineNode`, `TimelineBranch`, `Timeline`) -/

/-- The `type` union of `TimelineNode`:
`'decision' | 'code' | 'plan' | 'explanation' | 'alternative' | 'user-edit'`. -/
inductive NodeType : Type
  | decision
  | code
  | plan
  | explanation
  | alternative
  | userEdit
deriving DecidableEq, Repr

/-- `TimelineNode` (metadata omitted, see the module docstring). -/
structure TimelineNode : Type where
  id : Nat
  timestamp : Nat
  type : NodeType
  title : String
  description : String
  content : String
  parentId : Option Nat
  childrenIds : List Nat
  branchId : Nat
  stepNumber : Nat
deriving DecidableEq, Repr

/-- `TimelineBranch`. -/
structure TimelineBranch : Type where
  id : Nat
  name : String
  description : String
  created : Nat
  nodeIds : List Nat
  isActive : Bool
  parentBranchId : Option Nat
  branchPoint : Option Nat
deriving DecidableEq, Repr

/-- `Timeline`. -/
structure Timeline : Type where
  projectId : String
  branches : List (Nat × TimelineBranch)
  nodes : List (Nat × TimelineNode)
  mainBranchId : Nat
  activeBranchId : Nat
  activeNodeId : Nat
  checkpoints : List (String × Nat)
deriving DecidableEq, Repr

/-- `TimelineOptions`. -/
structure TimelineOptions : Type where
  maxBranches : Option Nat
  maxNodesPerBranch : Option Nat
  autoCheckpointInterval : Option Nat
deriving DecidableEq, Repr

/-- The defaults installed by the `TimelineService` constructor. -/
def defaultOptions : TimelineOptions :=
  { maxBranches := some 10
    maxNodesPerBranch := some 100
    autoCheckpointInterval := some 15 }

/-- The caller-supplied part of a node,
`Omit<TimelineNode, 'id' | 'timestamp' | 'childrenIds' | 'branchId' | 'stepNumber'>`. -/
structure NodeData : Type where
  type : NodeType
  title : String
  description : String
  content : String
deriving DecidableEq, Repr

/-- One timeline together with the fresh-identifier supply standing in for
`uuidv4()`.  The service's outer `Map<projectId, Timeline>` is a lookup
wrapper adding nothing to the per-timeline behaviour the claims are about, so
the embedding works with a single timeline. -/
structure TLState : Type where
  tl : Timeline
  nextId : Nat
deriving DecidableEq, Repr

/-! ## Operations -/

/-- `this.options.maxBranches || 10`: JS `||` falls back on the default both
when the option is absent and when it is `0` (falsy). -/
def maxBranchesOr10 (opts : TimelineOptions) : Nat :=
  match opts.maxBranches with
  | none => 10
  | some 0 => 10
  | some m => m

/-- `createTimeline(projectId, initialDescription)`: main branch, root node
(step number 1), both active, checkpoint `"initial"` at the root. -/
def createTimeline (projectId initialDescription : String) (now : Nat) : TLState :=
  let mainBranchId := 0
  let mainBranch : TimelineBranch :=
    { id := mainBranchId
      name := "Main"
      description := "Main development branch"
      created := now
      nodeIds := []
      isActive := true
      parentBranchId := none
      branchPoint := none }
  let initialNodeId := 1
  let initialNode : TimelineNode :=
    { id := initialNodeId
      timestamp := now
      type := NodeType.plan
      title := "Project Initialization"
      description := initialDescription
      content := "Project initialized with description: " ++ initialDescription
      parentId := none
      childrenIds := []
      branchId := mainBranchId
      stepNumber := 1 }
  let mainBranch := { mainBranch with nodeIds := mainBranch.nodeIds ++ [initialNodeId] }
  { tl :=
      { projectId := projectId
        branches := [(mainBranchId, mainBranch)]
        nodes := [(initialNodeId, initialNode)]
        mainBranchId := mainBranchId
        activeBranchId := mainBranchId
        activeNodeId := initialNodeId
        checkpoints := [("initial", initialNodeId)] }
    nextId := 2 }

/-- `createCheckpoint(projectId, checkpointName)`: bind (or rebind) the name to
the current active node.  Always returns `true` once the timeline exists. -/
def createCheckpoint (s : TLState) (checkpointName : String) : TLState × Bool :=
  ({ s with tl :=
      { s.tl with checkpoints := setA s.tl.checkpoints checkpointName s.tl.activeNodeId } },
   true)

/-- `createAutoCheckpointIfNeeded(timeline)`: if the configured interval is set
(JS-truthy, so nonzero), compute the latest timestamp among all checkpointed
nodes (`new Date(0)` for danglers, reduced from `new Date(0)`), and create a
time-named checkpoint at the active node when the elapsed minutes reach the
interval. -/
def createAutoCheckpointIfNeeded (opts : TimelineOptions) (tl : Timeline) (now : Nat) :
    Timeline :=
  match opts.autoCheckpointInterval with
  | none => tl
  | some interval =>
      if interval = 0 then tl
      else
        let latest := tl.checkpoints.foldl
          (fun latest p =>
            let t := match findA tl.nodes p.2 with
              | some n => n.timestamp
              | none => 0
            if latest < t then t else latest) 0
        let minutesSinceLastCheckpoint := now - latest
        if interval ≤ minutesSinceLastCheckpoint then
          { tl with
              checkpoints := setA tl.checkpoints ("auto-" ++ toString now) tl.activeNodeId }
        else tl

/-- `addNode(projectId, nodeData)`: create a child of the active node on the
active branch, append it to the branch, move the cursor to it, then run the
auto-checkpoint policy.  Returns `none` (JS `undefined`) with the state
untouched when the active branch or active node does not resolve. -/
def addNode (opts : TimelineOptions) (s : TLState) (nodeData : NodeData) (now : Nat) :
    TLState × Option TimelineNode :=
  let tl := s.tl
  match findA tl.branches tl.activeBranchId with
  | none => (s, none)
  | some activeBranch =>
    match findA tl.nodes tl.activeNodeId with
    | none => (s, none)
    | some activeNode =>
      let newNodeId := s.nextId
      let newNode : TimelineNode :=
        { id := newNodeId
          timestamp := now
          type := nodeData.type
          title := nodeData.title
          description := nodeData.description
          content := nodeData.content
          parentId := some activeNode.id
          childrenIds := []
          branchId := tl.activeBranchId
          stepNumber := activeNode.stepNumber + 1 }
      let activeNode := { activeNode with childrenIds := activeNode.childrenIds ++ [newNodeId] }
      let nodes := setA (setA tl.nodes activeNode.id activeNode) newNodeId newNode
      let activeBranch := { activeBranch with nodeIds := activeBranch.nodeIds ++ [newNodeId] }
      let branches := setA tl.branches activeBranch.id activeBranch
      let tl := { tl with nodes := nodes, branches := branches, activeNodeId := newNodeId }
      let tl := createAutoCheckpointIfNeeded opts tl now
      ({ tl := tl, nextId := s.nextId + 1 }, some newNode)

/-- `navigateToNode(projectId, nodeId)`: pure cursor move; the active branch
becomes the branch recorded on the target node. -/
def navigateToNode (s : TLState) (nodeId : Nat) : TLState × Bool :=
  match findA s.tl.nodes nodeId with
  | none => (s, false)
  | some targetNode =>
    match findA s.tl.branches targetNode.branchId with
    | none => (s, false)
    | some _ =>
      ({ s with tl :=
          { s.tl with activeNodeId := nodeId, activeBranchId := targetNode.branchId } },
       true)

/-- `createBranch(projectId, branchName, branchDescription)`: fork a new branch
at the active node (seeding its node list with that node), fail when the
branch cap is reached, flip every other branch inactive, and make the new
branch the active branch.  The cursor (`activeNodeId`) stays at the fork
point. -/
def createBranch (opts : TimelineOptions) (s : TLState)
    (branchName branchDescription : String) (now : Nat) :
    TLState × Option TimelineBranch :=
  match findA s.tl.nodes s.tl.activeNodeId with
  | none => (s, none)
  | some activeNode =>
    if maxBranchesOr10 opts ≤ s.tl.branches.length then (s, none)
    else
      let newBranchId := s.nextId
      let newBranch : TimelineBranch :=
        { id := newBranchId
          name := branchName
          description := branchDescription
          created := now
          nodeIds := [activeNode.id]
          isActive := true
          parentBranchId := some activeNode.branchId
          branchPoint := some activeNode.id }
      let branches := setA s.tl.branches newBranchId newBranch
      let branches := branches.map
        (fun p => if p.1 = newBranchId then p else (p.1, { p.2 with isActive := false }))
      ({ tl := { s.tl with branches := branches, activeBranchId := newBranchId }
         nextId := s.nextId + 1 },
       some newBranch)

/-- `navigateToCheckpoint(projectId, checkpointName)`: resolve the name and
delegate to `navigateToNode`.  (The source's falsy test on the stored node id
coincides with a presence test because uuid strings are never empty.) -/
def navigateToCheckpoint (s : TLState) (checkpointName : String) : TLState × Bool :=
  match findA s.tl.checkpoints checkpointName with
  | none => (s, false)
  | some checkpointNodeId => navigateToNode s checkpointNodeId

/-- The body of the `getCurrentPath` / `buildPath` upward `while` loop, with a
fuel argument standing in for the loop's (invariant-supplied) termination:
follow `parentId` links, collecting nodes root-first.  A failed lookup breaks
the loop keeping what was accumulated, exactly as `if (!currentNode) break`
does. -/
def pathToRootAux (tl : Timeline) : Nat → Nat → List TimelineNode
  | _, 0 => []
  | nid, fuel + 1 =>
    match findA tl.nodes nid with
    | none => []
    | some n =>
      match n.parentId with
      | none => [n]
      | some p => pathToRootAux tl p fuel ++ [n]

/-- `getCurrentPath(projectId)`: the chain from the parentless root down to the
active node.  The fuel `tl.nodes.length` dominates the chain length on every
well-formed timeline (step numbers are bounded by the node count and strictly
decrease along parent links), so the bounded recursion agrees with the
unbounded source loop there. -/
def getCurrentPath (s : TLState) : List TimelineNode :=
  pathToRootAux s.tl s.tl.activeNodeId s.tl.nodes.length

/-- One round of the `findPathBetweenNodes` BFS `while` loop: pop the front of
the queue, skip visited entries, mark, look the node up, stop on the target,
otherwise enqueue the children and (if unvisited) the parent.  Fuel stands in
for the loop's termination argument (every round pops one queue entry and
entries ever enqueued are bounded). -/
def findPathAux (tl : Timeline) (endId : Nat) :
    List (Nat × List TimelineNode) → List Nat → Nat → Option (List TimelineNode)
  | _, _, 0 => none
  | [], _, _ => none
  | (nodeId, path) :: queue, visited, fuel + 1 =>
    if nodeId ∈ visited then findPathAux tl endId queue visited fuel
    else
      let visited := nodeId :: visited
      match findA tl.nodes nodeId with
      | none => findPathAux tl endId queue visited fuel
      | some node =>
        let newPath := path ++ [node]
        if nodeId = endId then some newPath
        else
          let queue := queue ++ node.childrenIds.map (fun childId => (childId, newPath))
          let queue :=
            match node.parentId with
            | some p => if p ∈ visited then queue else queue ++ [(p, newPath)]
            | none => queue
          findPathAux tl endId queue visited fuel

/-- Fuel sufficient for the BFS: one unit per possible enqueue (the initial
entry plus, for each node, its children and its parent, each enqueued at most
once because a node is processed at most once). -/
def findPathFuel (tl : Timeline) : Nat :=
  1 + tl.nodes.foldl (fun acc p => acc + p.2.childrenIds.length + 1) 0

/-- `findPathBetweenNodes(timeline, startNodeId, endNodeId)`. -/
def findPathBetweenNodes (s : TLState) (startNodeId endNodeId : Nat) :
    Option (List TimelineNode) :=
  findPathAux s.tl endNodeId [(startNodeId, [])] [] (findPathFuel s.tl)

/-! ## Operation labels, the step function and reachability -/

/-- One public mutating call on the service (the navigation calls are included
because they move the cursor). -/
inductive Op : Type
  | addNode (nodeData : NodeData) (now : Nat)
  | navigateToNode (nodeId : Nat)
  | createBranch (branchName branchDescription : String) (now : Nat)
  | createCheckpoint (checkpointName : String)
  | navigateToCheckpoint (checkpointName : String)
deriving DecidableEq, Repr

/-- Apply one operation, discarding its return value. -/
def step (opts : TimelineOptions) (s : TLState) : Op → TLState
  | Op.addNode nodeData now => (addNode opts s nodeData now).1
  | Op.navigateToNode nodeId => (navigateToNode s nodeId).1
  | Op.createBranch n d now => (createBranch opts s n d now).1
  | Op.createCheckpoint name => (createCheckpoint s name).1
  | Op.navigateToCheckpoint name => (navigateToCheckpoint s name).1

/-- The states a timeline can actually be in: `createTimeline` followed by any
sequence of public operations. -/
inductive Reachable (opts : TimelineOptions) : TLState → Prop
  | init (projectId initialDescription : String) (now : Nat) :
      Reachable opts (createTimeline projectId initialDescription now)
  | step (s : TLState) (op : Op) :
      Reachable opts s → Reachable opts (step opts s op)

/-! ## Association-list lemmas -/

theorem findA_nil {K V : Type} [DecidableEq K] (k : K) :
    findA ([] : List (K × V)) k = none := rfl

theorem findA_cons {K V : Type} [DecidableEq K] (k' : K) (v : V) (m : List (K × V)) (k : K) :
    findA ((k', v) :: m) k = if k' = k then some v else findA m k := rfl

theorem findA_setA_self {K V : Type} [DecidableEq K] (m : List (K × V)) (k : K) (v : V) :
    findA (setA m k v) k = some v := by
  induction m with
  | nil => simp [setA, findA]
  | cons p rest ih =>
      obtain ⟨k', v'⟩ := p
      by_cases h : k' = k
      · simp [setA, findA, h]
      · simp [setA, findA, h, ih]

theorem findA_setA_ne {K V : Type} [DecidableEq K] (m : List (K × V)) (k k' : K) (v : V)
    (h : k' ≠ k) : findA (setA m k v) k' = findA m k' := by
  induction m with
  | nil => simp [setA, findA, Ne.symm h]
  | cons p rest ih =>
      obtain ⟨k₀, v₀⟩ := p
      by_cases hk : k₀ = k
      · subst hk
        simp [setA, findA, Ne.symm h]
      · simp only [setA, if_neg hk, findA_cons]
        by_cases hk' : k₀ = k'
        · simp [hk']
        · simp [hk', ih]

theorem mem_of_findA_eq_some {K V : Type} [DecidableEq K] {m : List (K × V)} {k : K} {v : V}
    (h : findA m k = some v) : (k, v) ∈ m := by
  induction m with
  | nil => simp [findA] at h
  | cons p rest ih =>
      obtain ⟨k', v'⟩ := p
      by_cases hk : k' = k
      · subst hk
        simp [findA] at h
        simp [h]
      · simp [findA, hk] at h
        exact List.mem_cons_of_mem _ (ih h)

theorem mem_keysA_of_findA {K V : Type} [DecidableEq K] {m : List (K × V)} {k : K} {v : V}
    (h : findA m k = some v) : k ∈ keysA m := by
  have := mem_of_findA_eq_some h
  exact List.mem_map.2 ⟨(k, v), this, rfl⟩

theorem findA_eq_none_of_not_mem {K V : Type} [DecidableEq K] {m : List (K × V)} {k : K}
    (h : k ∉ keysA m) : findA m k = none := by
  induction m with
  | nil => simp [findA]
  | cons p rest ih =>
      obtain ⟨k', v'⟩ := p
      rw [keysA, List.map_cons, List.mem_cons, not_or] at h
      rw [findA_cons, if_neg (fun hh => h.1 hh.symm)]
      exact ih h.2

theorem setA_of_not_mem {K V : Type} [DecidableEq K] {m : List (K × V)} {k : K} (v : V)
    (h : k ∉ keysA m) : setA m k v = m ++ [(k, v)] := by
  induction m with
  | nil => simp [setA]
  | cons p rest ih =>
      obtain ⟨k', v'⟩ := p
      rw [keysA, List.map_cons, List.mem_cons, not_or] at h
      have hne : ¬k' = k := fun hh => h.1 hh.symm
      simp only [setA, if_neg hne]
      rw [ih h.2, List.cons_append]

theorem mem_setA {K V : Type} [DecidableEq K] {m : List (K × V)} {k : K} {v : V} {p : K × V}
    (h : p ∈ setA m k v) : p = (k, v) ∨ p ∈ m := by
  induction m with
  | nil => simp [setA] at h; simp [h]
  | cons q rest ih =>
      obtain ⟨k', v'⟩ := q
      by_cases hk : k' = k
      · simp [setA, hk] at h
        rcases h with h | h
        · exact Or.inl (by simp [h])
        · exact Or.inr (List.mem_cons_of_mem _ h)
      · simp only [setA, if_neg hk, List.mem_cons] at h
        rcases h with h | h
        · exact Or.inr (by simp [h])
        · rcases ih h with h | h
          · exact Or.inl h
          · exact Or.inr (List.mem_cons_of_mem _ h)

theorem keysA_setA_of_mem {K V : Type} [DecidableEq K] {m : List (K × V)} {k : K} (v : V)
    (h : k ∈ keysA m) : keysA (setA m k v) = keysA m := by
  induction m with
  | nil => simp [keysA] at h
  | cons p rest ih =>
      obtain ⟨k', v'⟩ := p
      by_cases hk : k' = k
      · simp [setA, hk, keysA]
      · have hrest : k ∈ keysA rest := by
          rw [keysA, List.map_cons, List.mem_cons] at h
          rcases h with h | h
          · exact absurd h.symm hk
          · exact h
        simp only [setA, if_neg hk]
        show k' :: keysA (setA rest k v) = k' :: keysA rest
        rw [ih hrest]

theorem keysA_setA_of_not_mem {K V : Type} [DecidableEq K] {m : List (K × V)} {k : K} (v : V)
    (h : k ∉ keysA m) : keysA (setA m k v) = keysA m ++ [k] := by
  rw [setA_of_not_mem v h]
  simp [keysA]

theorem length_setA_of_mem {K V : Type} [DecidableEq K] {m : List (K × V)} {k : K} (v : V)
    (h : k ∈ keysA m) : (setA m k v).length = m.length := by
  have h1 := keysA_setA_of_mem (m := m) (k := k) v h
  have h2 : (keysA (setA m k v)).length = (keysA m).length := by rw [h1]
  simpa [keysA] using h2

theorem length_setA_of_not_mem {K V : Type} [DecidableEq K] {m : List (K × V)} {k : K} (v : V)
    (h : k ∉ keysA m) : (setA m k v).length = m.length + 1 := by
  rw [setA_of_not_mem v h]
  simp

theorem filter_length_setA {K V : Type} [DecidableEq K] (q : K × V → Bool)
    (m : List (K × V)) (k : K) (v v' : V)
    (h : findA m k = some v) (hq : q (k, v') = q (k, v)) :
    ((setA m k v').filter q).length = (m.filter q).length := by
  induction m with
  | nil => simp [findA] at h
  | cons p rest ih =>
      obtain ⟨k₀, v₀⟩ := p
      by_cases hk : k₀ = k
      · rw [findA_cons, if_pos hk] at h
        injection h with h
        simp only [setA, if_pos hk]
        have hswap : q (k, v') = q (k₀, v₀) := by rw [hq, hk, h]
        rw [List.filter_cons, List.filter_cons, hswap]
        cases hq0 : q (k₀, v₀) <;> simp
      · rw [findA_cons, if_neg hk] at h
        simp only [setA, if_neg hk]
        rw [List.filter_cons, List.filter_cons]
        cases hq0 : q (k₀, v₀) <;> simp [ih h]

theorem findA_map {K V : Type} [DecidableEq K] (f : K × V → K × V)
    (hf : ∀ p, (f p).1 = p.1) (m : List (K × V)) (k : K) :
    findA (m.map f) k = (findA m k).map (fun v => (f (k, v)).2) := by
  induction m with
  | nil => simp [findA]
  | cons p rest ih =>
      obtain ⟨k', v'⟩ := p
      rcases hfp : f (k', v') with ⟨a, b⟩
      have ha : a = k' := by
        have h2 := hf (k', v')
        rw [hfp] at h2
        exact h2
      subst ha
      by_cases hk : a = k
      · subst hk
        simp [findA_cons, hfp]
      · simp [findA_cons, hfp, hk, ih]

/-! ## Auto-checkpoint touches only the checkpoint map -/

theorem autoCk_eq (opts : TimelineOptions) (tl : Timeline) (now : Nat) :
    ∃ ck, createAutoCheckpointIfNeeded opts tl now = { tl with checkpoints := ck } := by
  unfold createAutoCheckpointIfNeeded
  rcases opts.autoCheckpointInterval with _ | interval
  · exact ⟨tl.checkpoints, rfl⟩
  · dsimp only
    split
    · exact ⟨tl.checkpoints, rfl⟩
    · split
      · exact ⟨_, rfl⟩
      · exact ⟨tl.checkpoints, rfl⟩

theorem autoCk_nodes (opts : TimelineOptions) (tl : Timeline) (now : Nat) :
    (createAutoCheckpointIfNeeded opts tl now).nodes = tl.nodes := by
  obtain ⟨ck, h⟩ := autoCk_eq opts tl now
  rw [h]

theorem autoCk_branches (opts : TimelineOptions) (tl : Timeline) (now : Nat) :
    (createAutoCheckpointIfNeeded opts tl now).branches = tl.branches := by
  obtain ⟨ck, h⟩ := autoCk_eq opts tl now
  rw [h]

theorem autoCk_activeNodeId (opts : TimelineOptions) (tl : Timeline) (now : Nat) :
    (createAutoCheckpointIfNeeded opts tl now).activeNodeId = tl.activeNodeId := by
  obtain ⟨ck, h⟩ := autoCk_eq opts tl now
  rw [h]

theorem autoCk_activeBranchId (opts : TimelineOptions) (tl : Timeline) (now : Nat) :
    (createAutoCheckpointIfNeeded opts tl now).activeBranchId = tl.activeBranchId := by
  obtain ⟨ck, h⟩ := autoCk_eq opts tl now
  rw [h]

/-! ## The well-formedness invariant of reachable timelines -/

/-- Structural invariants every reachable timeline satisfies.  They assert
exactly what the source relies on implicitly: map keys agree with stored
`id` fields and are pairwise distinct, identifiers handed out earlier are
below the supply counter, the cursor resolves, exactly one branch is flagged
active, each node sits in its creating branch's node list, parent/child links
are mutually consistent with the step-number law, and step numbers are
bounded by the node count (so upward traversals terminate). -/
structure WF (s : TLState) : Prop where
  nodeKey : ∀ p ∈ s.tl.nodes, (p : Nat × TimelineNode).2.id = p.1
  nodeFresh : ∀ p ∈ s.tl.nodes, (p : Nat × TimelineNode).1 < s.nextId
  branchKey : ∀ p ∈ s.tl.branches, (p : Nat × TimelineBranch).2.id = p.1
  branchFresh : ∀ p ∈ s.tl.branches, (p : Nat × TimelineBranch).1 < s.nextId
  nodesNodup : (keysA s.tl.nodes).Nodup
  branchesNodup : (keysA s.tl.branches).Nodup
  activeNodeEx : ∃ n, findA s.tl.nodes s.tl.activeNodeId = some n
  activeBranchEx : ∃ b, findA s.tl.branches s.tl.activeBranchId = some b
  oneActive : (s.tl.branches.filter (fun p => p.2.isActive)).length = 1
  nodeBranch : ∀ p ∈ s.tl.nodes,
      ∃ b, findA s.tl.branches (p : Nat × TimelineNode).2.branchId = some b ∧ p.1 ∈ b.nodeIds
  parentChild : ∀ p ∈ s.tl.nodes, ∀ pid, (p : Nat × TimelineNode).2.parentId = some pid →
      ∃ q, findA s.tl.nodes pid = some q ∧ p.1 ∈ q.childrenIds ∧
        p.2.stepNumber = q.stepNumber + 1
  childParent : ∀ p ∈ s.tl.nodes, ∀ c ∈ (p : Nat × TimelineNode).2.childrenIds,
      ∃ q, findA s.tl.nodes c = some q ∧ q.parentId = some p.1
  rootStep : ∀ p ∈ s.tl.nodes, (p : Nat × TimelineNode).2.parentId = none →
      p.2.stepNumber = 1
  stepLe : ∀ p ∈ s.tl.nodes, (p : Nat × TimelineNode).2.stepNumber ≤ s.tl.nodes.length

/-- Transfer `WF` across a step that leaves the node and branch maps
untouched (only cursor, checkpoints or the id supply move). -/
theorem wf_transfer (s s' : TLState) (h : WF s)
    (hnodes : s'.tl.nodes = s.tl.nodes)
    (hbranches : s'.tl.branches = s.tl.branches)
    (hex : ∃ n, findA s'.tl.nodes s'.tl.activeNodeId = some n)
    (hbex : ∃ b, findA s'.tl.branches s'.tl.activeBranchId = some b)
    (hnext : s.nextId ≤ s'.nextId) : WF s' := by
  refine ⟨?_, ?_, ?_, ?_, ?_, ?_, hex, hbex, ?_, ?_, ?_, ?_, ?_, ?_⟩
  · rw [hnodes]; exact h.nodeKey
  · rw [hnodes]; intro p hp; exact lt_of_lt_of_le (h.nodeFresh p hp) hnext
  · rw [hbranches]; exact h.branchKey
  · rw [hbranches]; intro p hp; exact lt_of_lt_of_le (h.branchFresh p hp) hnext
  · rw [hnodes]; exact h.nodesNodup
  · rw [hbranches]; exact h.branchesNodup
  · rw [hbranches]; exact h.oneActive
  · rw [hnodes, hbranches]; exact h.nodeBranch
  · rw [hnodes]; exact h.parentChild
  · rw [hnodes]; exact h.childParent
  · rw [hnodes]; exact h.rootStep
  · rw [hnodes]; exact h.stepLe

theorem wf_createTimeline (projectId initialDescription : String) (now : Nat) :
    WF (createTimeline projectId initialDescription now) := by
  refine ⟨?_, ?_, ?_, ?_, ?_, ?_, ?_, ?_, ?_, ?_, ?_, ?_, ?_, ?_⟩ <;>
    simp [createTimeline, findA, keysA]

theorem wf_createCheckpoint (s : TLState) (name : String) (h : WF s) :
    WF (createCheckpoint s name).1 := by
  exact wf_transfer s _ h rfl rfl h.activeNodeEx h.activeBranchEx le_rfl

theorem wf_navigateToNode (s : TLState) (nid : Nat) (h : WF s) :
    WF (navigateToNode s nid).1 := by
  cases hn : findA s.tl.nodes nid with
  | none => simp only [navigateToNode, hn]; exact h
  | some target =>
      cases hb : findA s.tl.branches target.branchId with
      | none => simp only [navigateToNode, hn, hb]; exact h
      | some b =>
          simp only [navigateToNode, hn, hb]
          exact wf_transfer s _ h rfl rfl ⟨target, hn⟩ ⟨b, hb⟩ le_rfl

theorem wf_navigateToCheckpoint (s : TLState) (name : String) (h : WF s) :
    WF (navigateToCheckpoint s name).1 := by
  cases hc : findA s.tl.checkpoints name with
  | none => simp only [navigateToCheckpoint, hc]; exact h
  | some nid =>
      simp only [navigateToCheckpoint, hc]
      exact wf_navigateToNode s nid h

theorem fresh_not_mem_keysA {V : Type} {m : List (Nat × V)} {n : Nat}
    (h : ∀ p ∈ m, (p : Nat × V).1 < n) : n ∉ keysA m := by
  intro hmem
  obtain ⟨p, hp, hfst⟩ := List.mem_map.1 hmem
  have := h p hp
  omega

theorem keysA_map {K V : Type} (g : K × V → K × V) (hg : ∀ p, (g p).1 = p.1)
    (m : List (K × V)) : keysA (m.map g) = keysA m := by
  induction m with
  | nil => rfl
  | cons p rest ih =>
      show (g p).1 :: keysA (rest.map g) = p.1 :: keysA rest
      rw [hg p, ih]

/-- The state `addNode` reaches just before the auto-checkpoint policy runs
satisfies the invariant.  `nn` is the freshly created node, characterised by
the fields the proof needs. -/
theorem wf_addNode_core (s : TLState) (ab : TimelineBranch) (an nn : TimelineNode)
    (h : WF s)
    (hab : findA s.tl.branches s.tl.activeBranchId = some ab)
    (han : findA s.tl.nodes s.tl.activeNodeId = some an)
    (hnnid : nn.id = s.nextId)
    (hnnparent : nn.parentId = some an.id)
    (hnnchildren : nn.childrenIds = [])
    (hnnbranch : nn.branchId = s.tl.activeBranchId)
    (hnnstep : nn.stepNumber = an.stepNumber + 1) :
    WF ⟨{ s.tl with
          nodes := setA (setA s.tl.nodes an.id
              { an with childrenIds := an.childrenIds ++ [s.nextId] }) s.nextId nn
          branches := setA s.tl.branches ab.id
              { ab with nodeIds := ab.nodeIds ++ [s.nextId] }
          activeNodeId := s.nextId },
        s.nextId + 1⟩ := by
  obtain ⟨⟨pj, branches, nodes, mainId, abid, aid, cks⟩, nextId⟩ := s
  dsimp only at han hab hnnbranch ⊢
  have hanmem : (aid, an) ∈ nodes := mem_of_findA_eq_some han
  have habmem : (abid, ab) ∈ branches := mem_of_findA_eq_some hab
  have haid : an.id = aid := h.nodeKey _ hanmem
  have habid : ab.id = abid := h.branchKey _ habmem
  subst haid
  subst habid
  have haidlt : an.id < nextId := h.nodeFresh _ hanmem
  have habidlt : ab.id < nextId := h.branchFresh _ habmem
  have hfreshN : nextId ∉ keysA nodes := fresh_not_mem_keysA h.nodeFresh
  have haidmem : an.id ∈ keysA nodes := mem_keysA_of_findA han
  set an' : TimelineNode := { an with childrenIds := an.childrenIds ++ [nextId] } with han'
  set ab' : TimelineBranch := { ab with nodeIds := ab.nodeIds ++ [nextId] } with hab'
  set nodes₁ := setA nodes an.id an' with hnodes₁
  set nodes₂ := setA nodes₁ nextId nn with hnodes₂
  set branches₂ := setA branches ab.id ab' with hbranches₂
  have hkeys₁ : keysA nodes₁ = keysA nodes := keysA_setA_of_mem an' haidmem
  have hfresh₁ : nextId ∉ keysA nodes₁ := by rw [hkeys₁]; exact hfreshN
  have f₂self : findA nodes₂ nextId = some nn := findA_setA_self nodes₁ nextId nn
  have f₂aid : findA nodes₂ an.id = some an' := by
    rw [hnodes₂, findA_setA_ne nodes₁ nextId an.id nn (by omega)]
    exact findA_setA_self nodes an.id an'
  have f₂old : ∀ x, x ≠ nextId → x ≠ an.id → findA nodes₂ x = findA nodes x := by
    intro x hx1 hx2
    rw [hnodes₂, findA_setA_ne nodes₁ nextId x nn hx1,
        hnodes₁, findA_setA_ne nodes an.id x an' hx2]
  have hmem₂ : ∀ p ∈ nodes₂, p = (nextId, nn) ∨ p = (an.id, an') ∨ p ∈ nodes := by
    intro p hp
    rcases mem_setA hp with hp | hp
    · exact Or.inl hp
    · rcases mem_setA hp with hp | hp
      · exact Or.inr (Or.inl hp)
      · exact Or.inr (Or.inr hp)
  have bf₂self : findA branches₂ ab.id = some ab' := findA_setA_self branches ab.id ab'
  have bf₂old : ∀ x, x ≠ ab.id → findA branches₂ x = findA branches x := by
    intro x hx
    rw [hbranches₂, findA_setA_ne branches ab.id x ab' hx]
  have bmem₂ : ∀ p ∈ branches₂, p = (ab.id, ab') ∨ p ∈ branches := fun p hp => mem_setA hp
  have branchPreserve : ∀ bid b₀, findA branches bid = some b₀ →
      ∃ b', findA branches₂ bid = some b' ∧ ∀ x ∈ b₀.nodeIds, x ∈ b'.nodeIds := by
    intro bid b₀ hb₀
    by_cases hb : bid = ab.id
    · subst hb
      rw [hab] at hb₀
      injection hb₀ with hb₀
      subst hb₀
      exact ⟨ab', bf₂self, fun x hx => by
        rw [hab']
        exact List.mem_append_left _ hx⟩
    · exact ⟨b₀, by rw [bf₂old bid hb, hb₀], fun x hx => hx⟩
  have parentLookup : ∀ pid q₀, findA nodes pid = some q₀ →
      ∃ q, findA nodes₂ pid = some q ∧ (∀ x ∈ q₀.childrenIds, x ∈ q.childrenIds) ∧
        q.stepNumber = q₀.stepNumber ∧ q.parentId = q₀.parentId := by
    intro pid q₀ hq₀
    have hpidlt : pid < nextId := h.nodeFresh _ (mem_of_findA_eq_some hq₀)
    by_cases hpid : pid = an.id
    · subst hpid
      rw [han] at hq₀
      injection hq₀ with hq₀
      subst hq₀
      exact ⟨an', f₂aid, fun x hx => by
        rw [han']
        exact List.mem_append_left _ hx, rfl, rfl⟩
    · exact ⟨q₀, by rw [f₂old pid (by omega) hpid, hq₀], fun x hx => hx, rfl, rfl⟩
  have hlen₂ : nodes₂.length = nodes.length + 1 := by
    rw [hnodes₂, length_setA_of_not_mem nn hfresh₁, hnodes₁,
        length_setA_of_mem an' haidmem]
  have hstepLeAn : an.stepNumber ≤ nodes.length := h.stepLe _ hanmem
  refine ⟨?_, ?_, ?_, ?_, ?_, ?_, ?_, ?_, ?_, ?_, ?_, ?_, ?_, ?_⟩
  · -- nodeKey
    intro p hp
    rcases hmem₂ p hp with hp | hp | hp
    · subst hp; exact hnnid
    · subst hp; simp [han']
    · exact h.nodeKey p hp
  · -- nodeFresh
    intro p hp
    show p.1 < nextId + 1
    rcases hmem₂ p hp with hp | hp | hp
    · subst hp; show nextId < nextId + 1; omega
    · subst hp; show an.id < nextId + 1; omega
    · have hlt : p.1 < nextId := h.nodeFresh p hp
      omega
  · -- branchKey
    intro p hp
    rcases bmem₂ p hp with hp | hp
    · subst hp; simp [hab']
    · exact h.branchKey p hp
  · -- branchFresh
    intro p hp
    show p.1 < nextId + 1
    rcases bmem₂ p hp with hp | hp
    · subst hp; show ab.id < nextId + 1; omega
    · have hlt : p.1 < nextId := h.branchFresh p hp
      omega
  · -- nodesNodup
    show (keysA nodes₂).Nodup
    rw [hnodes₂, keysA_setA_of_not_mem nn hfresh₁, hkeys₁]
    rw [List.nodup_append]
    exact ⟨h.nodesNodup, List.nodup_singleton nextId,
      fun x hx hx1 => by
        rw [List.mem_singleton] at hx1
        subst hx1
        exact hfreshN hx⟩
  · -- branchesNodup
    show (keysA branches₂).Nodup
    rw [hbranches₂, keysA_setA_of_mem ab' (mem_keysA_of_findA hab)]
    exact h.branchesNodup
  · -- activeNodeEx
    exact ⟨nn, f₂self⟩
  · -- activeBranchEx
    exact ⟨ab', bf₂self⟩
  · -- oneActive
    show (branches₂.filter (fun p => p.2.isActive)).length = 1
    rw [hbranches₂, filter_length_setA (fun p => p.2.isActive) branches ab.id ab ab' hab
      (by rw [hab'])]
    exact h.oneActive
  · -- nodeBranch
    intro p hp
    rcases hmem₂ p hp with hp | hp | hp
    · subst hp
      refine ⟨ab', ?_, ?_⟩
      · show findA branches₂ nn.branchId = some ab'
        rw [hnnbranch]; exact bf₂self
      · show nextId ∈ ab'.nodeIds
        rw [hab']; exact List.mem_append_right _ (List.mem_singleton_self nextId)
    · subst hp
      obtain ⟨b, hb, hmemb⟩ := h.nodeBranch _ hanmem
      obtain ⟨b', hb', hsub⟩ := branchPreserve _ b hb
      exact ⟨b', hb', hsub _ hmemb⟩
    · obtain ⟨b, hb, hmemb⟩ := h.nodeBranch p hp
      obtain ⟨b', hb', hsub⟩ := branchPreserve _ b hb
      exact ⟨b', hb', hsub _ hmemb⟩
  · -- parentChild
    intro p hp pid hpid
    rcases hmem₂ p hp with hp | hp | hp
    · subst hp
      dsimp only at hpid
      rw [hnnparent] at hpid
      injection hpid with hpid
      subst hpid
      refine ⟨an', f₂aid, ?_, ?_⟩
      · rw [han']
        exact List.mem_append_right _ (List.mem_singleton_self nextId)
      · dsimp only
        rw [hnnstep]
    · subst hp
      dsimp only at hpid
      obtain ⟨q₀, hq₀, hmemc, hstep⟩ := h.parentChild _ hanmem pid hpid
      obtain ⟨q, hq, hsubc, hstepeq, _⟩ := parentLookup pid q₀ hq₀
      refine ⟨q, hq, hsubc _ hmemc, ?_⟩
      dsimp only
      rw [hstepeq]
      exact hstep
    · obtain ⟨q₀, hq₀, hmemc, hstep⟩ := h.parentChild p hp pid hpid
      obtain ⟨q, hq, hsubc, hstepeq, _⟩ := parentLookup pid q₀ hq₀
      refine ⟨q, hq, hsubc _ hmemc, ?_⟩
      rw [hstepeq]
      exact hstep
  · -- childParent
    intro p hp c hc
    rcases hmem₂ p hp with hp | hp | hp
    · subst hp
      dsimp only at hc
      rw [hnnchildren] at hc
      exact absurd hc (List.not_mem_nil c)
    · subst hp
      dsimp only at hc
      rcases List.mem_append.1 hc with hc | hc
      · obtain ⟨q₀, hq₀, hqp⟩ := h.childParent _ hanmem c hc
        obtain ⟨q, hq, _, _, hpar⟩ := parentLookup c q₀ hq₀
        exact ⟨q, hq, by rw [hpar, hqp]⟩
      · rw [List.mem_singleton] at hc
        subst hc
        exact ⟨nn, f₂self, by rw [hnnparent]⟩
    · obtain ⟨q₀, hq₀, hqp⟩ := h.childParent p hp c hc
      obtain ⟨q, hq, _, _, hpar⟩ := parentLookup c q₀ hq₀
      exact ⟨q, hq, by rw [hpar, hqp]⟩
  · -- rootStep
    intro p hp hnone
    rcases hmem₂ p hp with hp | hp | hp
    · subst hp
      dsimp only at hnone
      rw [hnnparent] at hnone
      cases hnone
    · subst hp
      dsimp only at hnone ⊢
      exact h.rootStep _ hanmem hnone
    · exact h.rootStep p hp hnone
  · -- stepLe
    intro p hp
    show p.2.stepNumber ≤ nodes₂.length
    rw [hlen₂]
    rcases hmem₂ p hp with hp | hp | hp
    · subst hp
      show nn.stepNumber ≤ nodes.length + 1
      rw [hnnstep]
      omega
    · subst hp
      show an'.stepNumber ≤ nodes.length + 1
      rw [han']
      show an.stepNumber ≤ nodes.length + 1
      omega
    · have hle : p.2.stepNumber ≤ nodes.length := h.stepLe p hp
      omega

theorem wf_addNode (opts : TimelineOptions) (s : TLState) (d : NodeData) (now : Nat)
    (h : WF s) : WF (addNode opts s d now).1 := by
  cases hab : findA s.tl.branches s.tl.activeBranchId with
  | none => simp only [addNode, hab]; exact h
  | some ab =>
    cases han : findA s.tl.nodes s.tl.activeNodeId with
    | none => simp only [addNode, hab, han]; exact h
    | some an =>
      simp only [addNode, hab, han]
      have hcore := wf_addNode_core s ab an
        ⟨s.nextId, now, d.type, d.title, d.description, d.content, some an.id, [],
          s.tl.activeBranchId, an.stepNumber + 1⟩ h hab han rfl rfl rfl rfl rfl
      refine wf_transfer _ _ hcore (autoCk_nodes _ _ _) (autoCk_branches _ _ _) ?_ ?_ le_rfl
      · rw [autoCk_nodes, autoCk_activeNodeId]
        exact hcore.activeNodeEx
      · rw [autoCk_branches, autoCk_activeBranchId]
        exact hcore.activeBranchEx

/-- The state a successful `createBranch` reaches satisfies the invariant.
`nb` is the new branch, characterised by the fields the proof needs. -/
theorem wf_createBranch_core (s : TLState) (an : TimelineNode) (nb : TimelineBranch)
    (h : WF s)
    (han : findA s.tl.nodes s.tl.activeNodeId = some an)
    (hnbid : nb.id = s.nextId)
    (hnbnodes : nb.nodeIds = [an.id])
    (hnbactive : nb.isActive = true) :
    WF ⟨{ s.tl with
          branches := (setA s.tl.branches s.nextId nb).map
            (fun p => if p.1 = s.nextId then p else (p.1, { p.2 with isActive := false }))
          activeBranchId := s.nextId },
        s.nextId + 1⟩ := by
  obtain ⟨⟨pj, branches, nodes, mainId, abid, aid, cks⟩, nextId⟩ := s
  dsimp only at han hnbid hnbnodes ⊢
  have hanmem : (aid, an) ∈ nodes := mem_of_findA_eq_some han
  have haid : an.id = aid := h.nodeKey _ hanmem
  subst haid
  have hfreshB : nextId ∉ keysA branches := fresh_not_mem_keysA h.branchFresh
  set g : Nat × TimelineBranch → Nat × TimelineBranch :=
    fun p => if p.1 = nextId then p else (p.1, { p.2 with isActive := false }) with hg
  have hgkey : ∀ p, (g p).1 = p.1 := by
    intro p
    rw [hg]
    by_cases hp : p.1 = nextId <;> simp [hp]
  set branches₂ := (setA branches nextId nb).map g with hbranches₂
  have hset : setA branches nextId nb = branches ++ [(nextId, nb)] :=
    setA_of_not_mem nb hfreshB
  have bf₂self : findA branches₂ nextId = some nb := by
    rw [hbranches₂, findA_map g hgkey, findA_setA_self]
    show some (g (nextId, nb)).2 = some nb
    rw [hg]
    simp
  have bf₂old : ∀ x v, x ≠ nextId → findA branches x = some v →
      findA branches₂ x = some { v with isActive := false } := by
    intro x v hx hv
    rw [hbranches₂, findA_map g hgkey, findA_setA_ne branches nextId x nb hx, hv]
    show some (g (x, v)).2 = _
    rw [hg]
    simp [hx]
  have bmem₂ : ∀ p ∈ branches₂, ∃ p₀, (p₀ = (nextId, nb) ∨ p₀ ∈ branches) ∧ p = g p₀ := by
    intro p hp
    rw [hbranches₂] at hp
    obtain ⟨p₀, hp₀, hgp⟩ := List.mem_map.1 hp
    exact ⟨p₀, mem_setA hp₀, hgp.symm⟩
  refine ⟨?_, ?_, ?_, ?_, ?_, ?_, ?_, ?_, ?_, ?_, ?_, ?_, ?_, ?_⟩
  · -- nodeKey
    exact h.nodeKey
  · -- nodeFresh
    intro p hp
    show p.1 < nextId + 1
    have hlt : p.1 < nextId := h.nodeFresh p hp
    omega
  · -- branchKey
    intro p hp
    obtain ⟨p₀, hp₀, rfl⟩ := bmem₂ p hp
    show (g p₀).2.id = (g p₀).1
    rw [hg]
    rcases hp₀ with hp₀ | hp₀
    · subst hp₀
      simp [hnbid]
    · have hlt : p₀.1 < nextId := h.branchFresh p₀ hp₀
      have hne : ¬p₀.1 = nextId := by omega
      simp only [hne, if_neg, ite_false]
      exact h.branchKey p₀ hp₀
  · -- branchFresh
    intro p hp
    obtain ⟨p₀, hp₀, rfl⟩ := bmem₂ p hp
    show (g p₀).1 < nextId + 1
    rw [hgkey]
    rcases hp₀ with hp₀ | hp₀
    · subst hp₀
      show nextId < nextId + 1
      omega
    · have hlt : p₀.1 < nextId := h.branchFresh p₀ hp₀
      omega
  · -- nodesNodup
    exact h.nodesNodup
  · -- branchesNodup
    show (keysA branches₂).Nodup
    rw [hbranches₂, keysA_map g hgkey, keysA_setA_of_not_mem nb hfreshB, List.nodup_append]
    exact ⟨h.branchesNodup, List.nodup_singleton nextId,
      fun x hx hx1 => by
        rw [List.mem_singleton] at hx1
        subst hx1
        exact hfreshB hx⟩
  · -- activeNodeEx
    exact h.activeNodeEx
  · -- activeBranchEx
    exact ⟨nb, bf₂self⟩
  · -- oneActive
    show (branches₂.filter (fun p => p.2.isActive)).length = 1
    have hfilter : branches₂.filter (fun p => p.2.isActive) = [(nextId, nb)] := by
      rw [hbranches₂, hset, List.map_append, List.filter_append]
      have h1 : (branches.map g).filter (fun p => p.2.isActive) = [] := by
        rw [List.filter_eq_nil_iff]
        intro p hp
        obtain ⟨p₀, hp₀, hgp⟩ := List.mem_map.1 hp
        have hlt : p₀.1 < nextId := h.branchFresh p₀ hp₀
        have hne : ¬p₀.1 = nextId := by omega
        rw [← hgp, hg]
        simp [hne]
      have h2 : ([(nextId, nb)].map g).filter (fun p => p.2.isActive) = [(nextId, nb)] := by
        rw [hg]
        simp [hnbactive]
      rw [h1, h2, List.nil_append]
    rw [hfilter]
    rfl
  · -- nodeBranch
    intro p hp
    obtain ⟨b, hb, hmemb⟩ := h.nodeBranch p hp
    have hne : p.2.branchId ≠ nextId := by
      have hlt : p.2.branchId < nextId := h.branchFresh _ (mem_of_findA_eq_some hb)
      omega
    refine ⟨{ b with isActive := false }, bf₂old _ b hne hb, ?_⟩
    show p.1 ∈ b.nodeIds
    exact hmemb
  · -- parentChild
    exact h.parentChild
  · -- childParent
    exact h.childParent
  · -- rootStep
    exact h.rootStep
  · -- stepLe
    exact h.stepLe

theorem wf_createBranch (opts : TimelineOptions) (s : TLState)
    (bn bd : String) (now : Nat) (h : WF s) :
    WF (createBranch opts s bn bd now).1 := by
  cases han : findA s.tl.nodes s.tl.activeNodeId with
  | none => simp only [createBranch, han]; exact h
  | some an =>
    simp only [createBranch, han]
    by_cases hcap : maxBranchesOr10 opts ≤ s.tl.branches.length
    · rw [if_pos hcap]; exact h
    · rw [if_neg hcap]
      exact wf_createBranch_core s an
        ⟨s.nextId, bn, bd, now, [an.id], true, some an.branchId, some an.id⟩
        h han rfl rfl rfl

/-- Every operation preserves the invariant. -/
theorem wf_step (opts : TimelineOptions) (s : TLState) (op : Op) (h : WF s) :
    WF (step opts s op) := by
  cases op with
  | addNode d now => exact wf_addNode opts s d now h
  | navigateToNode nid => exact wf_navigateToNode s nid h
  | createBranch bn bd now => exact wf_createBranch opts s bn bd now h
  | createCheckpoint name => exact wf_createCheckpoint s name h
  | navigateToCheckpoint name => exact wf_navigateToCheckpoint s name h

/-- Every reachable timeline state is well-formed. -/
theorem wf_reachable (opts : TimelineOptions) (s : TLState) (h : Reachable opts s) :
    WF s := by
  induction h with
  | init projectId initialDescription now => exact wf_createTimeline projectId initialDescription now
  | step s op _ ih => exact wf_step opts s op ih

/-! ## Shared concrete example states -/

/-- A freshly created timeline for project `"P1"`. -/
def exTimeline : TLState := createTimeline "P1" "demo" 0

/-- `exTimeline` after forking a branch at the root (the cursor stays on the
root node, whose `branchId` still names the main branch). -/
def exForked : TLState :=
  (createBranch defaultOptions exTimeline "experiment" "try alt" 0).1

/-- Concrete node payload used by witnesses. -/
def exData : NodeData :=
  { type := NodeType.code, title := "t", description := "d", content := "c" }

/-! ## Claim theorems -/

/-- C3: in every reachable timeline state exactly one branch has
`isActive = true`, and a successful `createBranch` flips the new branch to
active and every other branch to inactive. -/
theorem c3_exactly_one_active_branch (opts : TimelineOptions) (s : TLState)
    (h : Reachable opts s) :
    (s.tl.branches.filter (fun p => p.2.isActive)).length = 1 ∧
    (∀ bn bd now s' nb, createBranch opts s bn bd now = (s', some nb) →
      nb.isActive = true ∧
      ∀ p ∈ s'.tl.branches, p.1 ≠ nb.id → p.2.isActive = false) := by
  have hwf := wf_reachable opts s h
  refine ⟨hwf.oneActive, ?_⟩
  intro bn bd now s' nb heq
  cases han : findA s.tl.nodes s.tl.activeNodeId with
  | none =>
      simp only [createBranch, han] at heq
      have := congrArg Prod.snd heq
      simp at this
  | some an =>
      simp only [createBranch, han] at heq
      by_cases hcap : maxBranchesOr10 opts ≤ s.tl.branches.length
      · rw [if_pos hcap] at heq
        have := congrArg Prod.snd heq
        simp at this
      · rw [if_neg hcap] at heq
        have hnb := congrArg Prod.snd heq
        simp only at hnb
        injection hnb with hnb
        have hs' := congrArg Prod.fst heq
        simp only at hs'
        subst hnb
        refine ⟨rfl, ?_⟩
        intro p hp hpne
        rw [← hs'] at hp
        simp only at hp
        obtain ⟨p₀, hp₀, hgp⟩ := List.mem_map.1 hp
        by_cases hk : p₀.1 = s.nextId
        · exfalso
          rcases mem_setA hp₀ with hp₀ | hp₀
          · apply hpne
            rw [← hgp]
            simp [hp₀, hk]
          · have hlt : p₀.1 < s.nextId := hwf.branchFresh p₀ hp₀
            omega
        · rw [← hgp]
          simp [hk]

/-- Witness for C3: the theorem applied to the freshly created timeline. -/
theorem c3_exactly_one_active_branch_witness :
    ((createTimeline "P1" "demo" 0).tl.branches.filter (fun p => p.2.isActive)).length = 1 :=
  (c3_exactly_one_active_branch defaultOptions (createTimeline "P1" "demo" 0)
    (Reachable.init "P1" "demo" 0)).1

/-- C5: in every reachable state, a node's parent link is mirrored in the
parent's `childrenIds`, and every child id a node lists points back at it. -/
theorem c5_parent_child_consistency (opts : TimelineOptions) (s : TLState)
    (h : Reachable opts s) :
    (∀ p ∈ s.tl.nodes, ∀ pid, (p : Nat × TimelineNode).2.parentId = some pid →
       ∃ q, findA s.tl.nodes pid = some q ∧ q.id = pid ∧ p.2.id ∈ q.childrenIds) ∧
    (∀ p ∈ s.tl.nodes, ∀ c ∈ (p : Nat × TimelineNode).2.childrenIds,
       ∃ q, findA s.tl.nodes c = some q ∧ q.parentId = some p.2.id) := by
  have hwf := wf_reachable opts s h
  constructor
  · intro p hp pid hpid
    obtain ⟨q, hq, hmem, _⟩ := hwf.parentChild p hp pid hpid
    refine ⟨q, hq, hwf.nodeKey _ (mem_of_findA_eq_some hq), ?_⟩
    rw [hwf.nodeKey p hp]
    exact hmem
  · intro p hp c hc
    obtain ⟨q, hq, hqp⟩ := hwf.childParent p hp c hc
    refine ⟨q, hq, ?_⟩
    rw [hwf.nodeKey p hp]
    exact hqp

/-- Witness for C5: after one `addNode` on a fresh timeline, the new node
(id 2, parent 1) is listed among the root's children. -/
theorem c5_parent_child_consistency_witness :
    ∃ q, findA ((addNode defaultOptions exTimeline exData 0).1).tl.nodes 1 = some q ∧
      q.id = 1 ∧
      (⟨2, 0, NodeType.code, "t", "d", "c", some 1, [], 0, 2⟩ : TimelineNode).id ∈
        q.childrenIds :=
  (c5_parent_child_consistency defaultOptions (addNode defaultOptions exTimeline exData 0).1
      (Reachable.step exTimeline (Op.addNode exData 0) (Reachable.init "P1" "demo" 0))).1
    (2, ⟨2, 0, NodeType.code, "t", "d", "c", some 1, [], 0, 2⟩) (by decide) 1 (by decide)

/-- C6 counterexample: forking a branch at the root leaves the root node in
the node lists of two branches (its creating branch and the fork), so "every
node id appears in exactly one branch's node list" fails. -/
theorem c6_counterexample :
    (createBranch defaultOptions exTimeline "experiment" "try alt" 0).2.isSome = true ∧
    (findA exForked.tl.nodes 1).isSome = true ∧
    ((exForked.tl.branches.filter (fun p => 1 ∈ p.2.nodeIds)).length = 1) = False := by
  decide

/-- C6 amended: every node id appears in the node list of at least one branch,
namely the branch recorded as the node's `branchId`; branch-point nodes are
additionally seeded into each branch forked at them. -/
theorem c6_amended (opts : TimelineOptions) (s : TLState) (h : Reachable opts s) :
    ∀ p ∈ s.tl.nodes,
      ∃ b, findA s.tl.branches (p : Nat × TimelineNode).2.branchId = some b ∧
        p.1 ∈ b.nodeIds :=
  (wf_reachable opts s h).nodeBranch

/-- Witness for C6 (amended form): the root node of a fresh timeline sits in
its own branch's node list. -/
theorem c6_amended_witness :
    ∃ b, findA (createTimeline "P1" "demo" 0).tl.branches
        (⟨1, 0, NodeType.plan, "Project Initialization", "demo",
          "Project initialized with description: demo", none, [], 0, 1⟩ :
          TimelineNode).branchId = some b ∧
      (1 : Nat) ∈ b.nodeIds :=
  c6_amended defaultOptions (createTimeline "P1" "demo" 0) (Reachable.init "P1" "demo" 0)
    (1, ⟨1, 0, NodeType.plan, "Project Initialization", "demo",
      "Project initialized with description: demo", none, [], 0, 1⟩) (by decide)

/-- C7: when the branch count has reached the configured cap (`maxBranches`,
default 10), `createBranch` fails (returns `undefined`, embedded as `none`)
and returns the state verbatim — no field is modified. -/
theorem c7_branch_cap (opts : TimelineOptions) (s : TLState) (bn bd : String) (now : Nat)
    (hcap : maxBranchesOr10 opts ≤ s.tl.branches.length) :
    createBranch opts s bn bd now = (s, none) := by
  cases han : findA s.tl.nodes s.tl.activeNodeId with
  | none => simp only [createBranch, han]
  | some an =>
      simp only [createBranch, han]
      rw [if_pos hcap]

/-- A timeline whose branch count has reached the default cap of 10: the main
branch plus nine forks. -/
def exMaxBranches : TLState :=
  (List.range 9).foldl (fun s _ => (createBranch defaultOptions s "b" "d" 0).1) exTimeline

/-- Witness for C7: at the 10-branch state the cap is reached and
`createBranch` returns the state unchanged with `none`. -/
theorem c7_branch_cap_witness :
    maxBranchesOr10 defaultOptions ≤ exMaxBranches.tl.branches.length ∧
    createBranch defaultOptions exMaxBranches "x" "y" 3 = (exMaxBranches, none) :=
  ⟨by decide, c7_branch_cap defaultOptions exMaxBranches "x" "y" 3 (by decide)⟩

/-- C4: with a resolving active branch and active node, `addNode` creates a
child of the active node on the active branch with step number one higher,
appends it to the branch's node list, and moves the cursor to it. -/
theorem c4_addNode_spec (opts : TimelineOptions) (s : TLState) (d : NodeData) (now : Nat)
    (h : WF s) :
    ∃ an ab nn s',
      findA s.tl.nodes s.tl.activeNodeId = some an ∧
      findA s.tl.branches s.tl.activeBranchId = some ab ∧
      addNode opts s d now = (s', some nn) ∧
      nn.parentId = some s.tl.activeNodeId ∧
      nn.branchId = s.tl.activeBranchId ∧
      nn.stepNumber = an.stepNumber + 1 ∧
      s'.tl.activeNodeId = nn.id ∧
      findA s'.tl.nodes nn.id = some nn ∧
      (∃ ab', findA s'.tl.branches s.tl.activeBranchId = some ab' ∧
        ab'.nodeIds = ab.nodeIds ++ [nn.id]) := by
  obtain ⟨an, han⟩ := h.activeNodeEx
  obtain ⟨ab, hab⟩ := h.activeBranchEx
  have haid : an.id = s.tl.activeNodeId := h.nodeKey _ (mem_of_findA_eq_some han)
  have habid : ab.id = s.tl.activeBranchId := h.branchKey _ (mem_of_findA_eq_some hab)
  have hfreshN : s.nextId ∉ keysA s.tl.nodes := fresh_not_mem_keysA h.nodeFresh
  have heq : addNode opts s d now =
      (⟨createAutoCheckpointIfNeeded opts
          { s.tl with
              nodes := setA (setA s.tl.nodes an.id
                  { an with childrenIds := an.childrenIds ++ [s.nextId] }) s.nextId
                  ⟨s.nextId, now, d.type, d.title, d.description, d.content, some an.id,
                    [], s.tl.activeBranchId, an.stepNumber + 1⟩
              branches := setA s.tl.branches ab.id
                  { ab with nodeIds := ab.nodeIds ++ [s.nextId] }
              activeNodeId := s.nextId } now,
        s.nextId + 1⟩,
       some ⟨s.nextId, now, d.type, d.title, d.description, d.content, some an.id,
         [], s.tl.activeBranchId, an.stepNumber + 1⟩) := by
    simp only [addNode, hab, han]
  refine ⟨an, ab, _, _, han, hab, heq, ?_, rfl, rfl, ?_, ?_, ?_⟩
  · show some an.id = some s.tl.activeNodeId
    rw [haid]
  · show (createAutoCheckpointIfNeeded opts _ now).activeNodeId = s.nextId
    rw [autoCk_activeNodeId]
  · show findA (createAutoCheckpointIfNeeded opts _ now).nodes s.nextId = _
    rw [autoCk_nodes]
    exact findA_setA_self _ s.nextId _
  · refine ⟨{ ab with nodeIds := ab.nodeIds ++ [s.nextId] }, ?_, rfl⟩
    show findA (createAutoCheckpointIfNeeded opts _ now).branches s.tl.activeBranchId = _
    rw [autoCk_branches, ← habid]
    exact findA_setA_self _ ab.id _

/-- Witness for C4: the theorem applied to the freshly created timeline. -/
theorem c4_addNode_spec_witness :
    ∃ an ab nn s',
      findA exTimeline.tl.nodes exTimeline.tl.activeNodeId = some an ∧
      findA exTimeline.tl.branches exTimeline.tl.activeBranchId = some ab ∧
      addNode defaultOptions exTimeline exData 0 = (s', some nn) ∧
      nn.parentId = some exTimeline.tl.activeNodeId ∧
      nn.branchId = exTimeline.tl.activeBranchId ∧
      nn.stepNumber = an.stepNumber + 1 ∧
      s'.tl.activeNodeId = nn.id ∧
      findA s'.tl.nodes nn.id = some nn ∧
      (∃ ab', findA s'.tl.branches exTimeline.tl.activeBranchId = some ab' ∧
        ab'.nodeIds = ab.nodeIds ++ [nn.id]) :=
  c4_addNode_spec defaultOptions exTimeline exData 0 (wf_createTimeline "P1" "demo" 0)

/-- The property C1 asserts of every state: the node the cursor points at
belongs (by its `branchId` field) to the branch the cursor names. -/
def cursorOnActiveBranch (s : TLState) : Prop :=
  (findA s.tl.nodes s.tl.activeNodeId).map TimelineNode.branchId =
    some s.tl.activeBranchId

theorem navigateToNode_cursor (s : TLState) (nid : Nat) (s' : TLState)
    (h : navigateToNode s nid = (s', true)) : cursorOnActiveBranch s' := by
  cases hn : findA s.tl.nodes nid with
  | none =>
      simp only [navigateToNode, hn] at h
      exact absurd (congrArg Prod.snd h) (by simp)
  | some target =>
      cases hb : findA s.tl.branches target.branchId with
      | none =>
          simp only [navigateToNode, hn, hb] at h
          exact absurd (congrArg Prod.snd h) (by simp)
      | some b =>
          simp only [navigateToNode, hn, hb] at h
          have hs' := congrArg Prod.fst h
          simp only at hs'
          rw [← hs']
          show (findA s.tl.nodes nid).map TimelineNode.branchId = some target.branchId
          rw [hn]
          rfl

/-- C1 counterexample: `createBranch` succeeds on a fresh timeline, yet
afterwards the active node's `branchId` (the parent branch) differs from
`activeBranchId` (the new branch), refuting the claimed invariant. -/
theorem c1_counterexample :
    (createBranch defaultOptions exTimeline "experiment" "try alt" 0).2.isSome = true ∧
    ¬cursorOnActiveBranch exForked := by
  constructor
  · decide
  · intro hcur
    rw [cursorOnActiveBranch] at hcur
    revert hcur
    decide

/-- C1 amended: the active node belongs to the active branch after
`createTimeline`, after a successful `addNode`, and after a successful
`navigateToNode` or `navigateToCheckpoint`; `createCheckpoint` leaves the
cursor (and the node map) untouched; but a successful `createBranch` always
breaks the property — the cursor stays on the fork node, whose `branchId` is
the new branch's `parentBranchId`, while `activeBranchId` becomes the new
branch's id. -/
theorem c1_amended :
    (∀ pj dsc t, cursorOnActiveBranch (createTimeline pj dsc t)) ∧
    (∀ opts s d now s' nn, addNode opts s d now = (s', some nn) →
        cursorOnActiveBranch s') ∧
    (∀ s nid s', navigateToNode s nid = (s', true) → cursorOnActiveBranch s') ∧
    (∀ s name s', navigateToCheckpoint s name = (s', true) → cursorOnActiveBranch s') ∧
    (∀ s name,
        (createCheckpoint s name).1.tl.activeNodeId = s.tl.activeNodeId ∧
        (createCheckpoint s name).1.tl.activeBranchId = s.tl.activeBranchId ∧
        (createCheckpoint s name).1.tl.nodes = s.tl.nodes) ∧
    (∀ opts s bn bd now s' nb, WF s → createBranch opts s bn bd now = (s', some nb) →
        (findA s'.tl.nodes s'.tl.activeNodeId).map TimelineNode.branchId =
          nb.parentBranchId ∧
        s'.tl.activeBranchId = nb.id ∧
        ¬cursorOnActiveBranch s') := by
  refine ⟨?_, ?_, ?_, ?_, ?_, ?_⟩
  · intro pj dsc t
    show (findA _ _).map TimelineNode.branchId = _
    simp [createTimeline, findA]
  · intro opts s d now s' nn heq
    cases hab : findA s.tl.branches s.tl.activeBranchId with
    | none =>
        simp only [addNode, hab] at heq
        exact absurd (congrArg Prod.snd heq) (by simp)
    | some ab =>
      cases han : findA s.tl.nodes s.tl.activeNodeId with
      | none =>
          simp only [addNode, hab, han] at heq
          exact absurd (congrArg Prod.snd heq) (by simp)
      | some an =>
          simp only [addNode, hab, han] at heq
          have hs' := congrArg Prod.fst heq
          simp only at hs'
          rw [← hs']
          show (findA (createAutoCheckpointIfNeeded opts _ now).nodes
              (createAutoCheckpointIfNeeded opts _ now).activeNodeId).map
              TimelineNode.branchId = some (createAutoCheckpointIfNeeded opts _ now).activeBranchId
          rw [autoCk_nodes, autoCk_activeNodeId, autoCk_activeBranchId]
          show (findA (setA _ s.nextId _) s.nextId).map TimelineNode.branchId = _
          rw [findA_setA_self]
          rfl
  · exact navigateToNode_cursor
  · intro s name s' heq
    cases hc : findA s.tl.checkpoints name with
    | none =>
        simp only [navigateToCheckpoint, hc] at heq
        exact absurd (congrArg Prod.snd heq) (by simp)
    | some nid =>
        simp only [navigateToCheckpoint, hc] at heq
        exact navigateToNode_cursor s nid s' heq
  · intro s name
    exact ⟨rfl, rfl, rfl⟩
  · intro opts s bn bd now s' nb hwf heq
    cases han : findA s.tl.nodes s.tl.activeNodeId with
    | none =>
        simp only [createBranch, han] at heq
        exact absurd (congrArg Prod.snd heq) (by simp)
    | some an =>
      simp only [createBranch, han] at heq
      by_cases hcap : maxBranchesOr10 opts ≤ s.tl.branches.length
      · rw [if_pos hcap] at heq
        exact absurd (congrArg Prod.snd heq) (by simp)
      · rw [if_neg hcap] at heq
        have hnb := congrArg Prod.snd heq
        simp only at hnb
        injection hnb with hnb
        have hs' := congrArg Prod.fst heq
        simp only at hs'
        subst hnb
        rw [← hs']
        have hcur : (findA s.tl.nodes s.tl.activeNodeId).map TimelineNode.branchId =
            some an.branchId := by rw [han]; rfl
        refine ⟨hcur, rfl, ?_⟩
        intro hbad
        rw [cursorOnActiveBranch] at hbad
        have hb1 : (findA s.tl.nodes s.tl.activeNodeId).map TimelineNode.branchId =
            some s.nextId := hbad
        rw [hcur] at hb1
        injection hb1 with hb1
        obtain ⟨b, hb, _⟩ := hwf.nodeBranch _ (mem_of_findA_eq_some han)
        have hlt : an.branchId < s.nextId := hwf.branchFresh _ (mem_of_findA_eq_some hb)
        omega

/-- Witness for C1 (amended form): the `createBranch` conjunct applied to the
concrete fork of a fresh timeline. -/
theorem c1_amended_witness : ¬cursorOnActiveBranch exForked :=
  (c1_amended.2.2.2.2.2 defaultOptions exTimeline "experiment" "try alt" 0 exForked
      ⟨2, "experiment", "try alt", 0, [1], true, some 0, some 1⟩
      (wf_createTimeline "P1" "demo" 0) (by decide)).2.2

/-- C10: `navigateToNode` changes only the cursor fields — branches (hence
every `isActive` flag), nodes, checkpoints, the main-branch id, the project id
and the id supply are returned verbatim; consequently, navigating to a node
whose `branchId` differs from the unique `isActive`-flagged branch leaves that
flagged branch in place while `activeBranchId` names a different branch. -/
theorem c10_navigateToNode_leaves_flags (opts : TimelineOptions) :
    (∀ s nid,
      (navigateToNode s nid).1.tl.branches = s.tl.branches ∧
      (navigateToNode s nid).1.tl.nodes = s.tl.nodes ∧
      (navigateToNode s nid).1.tl.checkpoints = s.tl.checkpoints ∧
      (navigateToNode s nid).1.tl.mainBranchId = s.tl.mainBranchId ∧
      (navigateToNode s nid).1.tl.projectId = s.tl.projectId ∧
      (navigateToNode s nid).1.nextId = s.nextId) ∧
    (∀ s nid s' target ab bact,
      navigateToNode s nid = (s', true) →
      findA s.tl.nodes nid = some target →
      s.tl.branches.filter (fun p => p.2.isActive) = [(ab, bact)] →
      target.branchId ≠ ab →
      s'.tl.branches.filter (fun p => p.2.isActive) = [(ab, bact)] ∧
      s'.tl.activeBranchId ≠ ab) := by
  constructor
  · intro s nid
    cases hn : findA s.tl.nodes nid with
    | none => simp [navigateToNode, hn]
    | some target =>
        cases hb : findA s.tl.branches target.branchId with
        | none => simp [navigateToNode, hn, hb]
        | some b => simp [navigateToNode, hn, hb]
  · intro s nid s' target ab bact heq hn hfilter hne
    simp only [navigateToNode, hn] at heq
    cases hb : findA s.tl.branches target.branchId with
    | none =>
        rw [hb] at heq
        exact absurd (congrArg Prod.snd heq) (by simp)
    | some b =>
        rw [hb] at heq
        have hs' := congrArg Prod.fst heq
        simp only at hs'
        rw [← hs']
        exact ⟨hfilter, hne⟩

/-- Witness for C10: in the forked timeline the flagged branch is the new
branch (id 2); navigating back to the root (branch 0) keeps the flag on
branch 2 while `activeBranchId` becomes 0. -/
theorem c10_navigateToNode_leaves_flags_witness :
    (navigateToNode exForked 1).1.tl.branches.filter (fun p => p.2.isActive) =
      [(2, ⟨2, "experiment", "try alt", 0, [1], true, some 0, some 1⟩)] ∧
    (navigateToNode exForked 1).1.tl.activeBranchId ≠ 2 :=
  (c10_navigateToNode_leaves_flags defaultOptions).2 exForked 1
    (navigateToNode exForked 1).1
    ⟨1, 0, NodeType.plan, "Project Initialization", "demo",
      "Project initialized with description: demo", none, [], 0, 1⟩
    2 ⟨2, "experiment", "try alt", 0, [1], true, some 0, some 1⟩
    (by decide) (by decide) (by decide) (by decide)

theorem wf_stepPos (s : TLState) (h : WF s) :
    ∀ p ∈ s.tl.nodes, 1 ≤ (p : Nat × TimelineNode).2.stepNumber := by
  intro p hp
  cases hpar : p.2.parentId with
  | none =>
      rw [h.rootStep p hp hpar]
  | some pid =>
      obtain ⟨q, _, _, hstep⟩ := h.parentChild p hp pid hpar
      omega

/-- On a well-formed timeline, the upward traversal from any stored node, run
with at least `stepNumber` units of fuel, yields the full ancestor chain:
its length is the node's step number, it starts at a parentless root, ends at
the node itself, and consecutive entries are linked by `parentId`. -/
theorem pathToRootAux_spec (s : TLState) (h : WF s) :
    ∀ fuel nid n, findA s.tl.nodes nid = some n → n.stepNumber ≤ fuel →
      (pathToRootAux s.tl nid fuel).length = n.stepNumber ∧
      (pathToRootAux s.tl nid fuel).getLast? = some n ∧
      (∃ r, (pathToRootAux s.tl nid fuel).head? = some r ∧ r.parentId = none) ∧
      List.Chain' (fun a b => b.parentId = some a.id) (pathToRootAux s.tl nid fuel) := by
  intro fuel
  induction fuel with
  | zero =>
      intro nid n hn hle
      have hpos : 1 ≤ n.stepNumber := wf_stepPos s h _ (mem_of_findA_eq_some hn)
      exact absurd hle (by omega)
  | succ fuel ih =>
      intro nid n hn hle
      cases hpar : n.parentId with
      | none =>
          have hstep : n.stepNumber = 1 := h.rootStep _ (mem_of_findA_eq_some hn) hpar
          simp only [pathToRootAux, hn, hpar]
          exact ⟨by simp [hstep], by simp, ⟨n, by simp, hpar⟩, by simp⟩
      | some pid =>
          obtain ⟨q, hq, hmem, hstep⟩ := h.parentChild _ (mem_of_findA_eq_some hn) pid hpar
          have hstep' : n.stepNumber = q.stepNumber + 1 := hstep
          have hqid : q.id = pid := h.nodeKey _ (mem_of_findA_eq_some hq)
          have hqle : q.stepNumber ≤ fuel := by omega
          obtain ⟨ihlen, ihlast, ⟨r, hr, hrnone⟩, ihchain⟩ := ih pid q hq hqle
          have hne : pathToRootAux s.tl pid fuel ≠ [] := by
            intro hnil
            rw [hnil] at ihlen
            have hpos : 1 ≤ q.stepNumber := wf_stepPos s h _ (mem_of_findA_eq_some hq)
            simp at ihlen
            omega
          simp only [pathToRootAux, hn, hpar]
          refine ⟨?_, ?_, ?_, ?_⟩
          · rw [List.length_append, ihlen]
            simp
            omega
          · rw [List.getLast?_concat]
          · refine ⟨r, ?_, hrnone⟩
            rw [List.head?_append_of_ne_nil _ hne]
            exact hr
          · rw [List.chain'_append]
            refine ⟨ihchain, List.chain'_singleton n, ?_⟩
            intro x hx y hy
            rw [ihlast] at hx
            simp only [Option.mem_def, Option.some.injEq] at hx
            simp only [List.head?_cons, Option.mem_def, Option.some.injEq] at hy
            subst hx
            subst hy
            rw [hpar, hqid]

/-- C8: on every reachable timeline, `getCurrentPath` returns the chain from
the parentless root to the active node: its length is the active node's
`stepNumber`, its head is a parentless root, its last element is the active
node, consecutive entries follow `parentId` links, and (being a pure function
of the state) repeated calls return the identical sequence. -/
theorem c8_getCurrentPath_spec (opts : TimelineOptions) (s : TLState)
    (h : Reachable opts s) :
    ∃ n, findA s.tl.nodes s.tl.activeNodeId = some n ∧
      (getCurrentPath s).length = n.stepNumber ∧
      (∃ r, (getCurrentPath s).head? = some r ∧ r.parentId = none) ∧
      (getCurrentPath s).getLast? = some n ∧
      List.Chain' (fun a b => b.parentId = some a.id) (getCurrentPath s) ∧
      getCurrentPath s = getCurrentPath s := by
  have hwf := wf_reachable opts s h
  obtain ⟨n, hn⟩ := hwf.activeNodeEx
  have hle : n.stepNumber ≤ s.tl.nodes.length := hwf.stepLe _ (mem_of_findA_eq_some hn)
  obtain ⟨h1, h2, h3, h4⟩ :=
    pathToRootAux_spec s hwf s.tl.nodes.length s.tl.activeNodeId n hn hle
  exact ⟨n, hn, h1, h3, h2, h4, rfl⟩

/-- Witness for C8: the theorem applied to the freshly created timeline. -/
theorem c8_getCurrentPath_spec_witness :
    ∃ n, findA (createTimeline "P1" "demo" 0).tl.nodes
        (createTimeline "P1" "demo" 0).tl.activeNodeId = some n ∧
      (getCurrentPath (createTimeline "P1" "demo" 0)).length = n.stepNumber ∧
      (∃ r, (getCurrentPath (createTimeline "P1" "demo" 0)).head? = some r ∧
        r.parentId = none) ∧
      (getCurrentPath (createTimeline "P1" "demo" 0)).getLast? = some n ∧
      List.Chain' (fun a b => b.parentId = some a.id)
        (getCurrentPath (createTimeline "P1" "demo" 0)) ∧
      getCurrentPath (createTimeline "P1" "demo" 0) =
        getCurrentPath (createTimeline "P1" "demo" 0) :=
  c8_getCurrentPath_spec defaultOptions (createTimeline "P1" "demo" 0)
    (Reachable.init "P1" "demo" 0)

theorem autoCk_checkpoints_find (opts : TimelineOptions) (tl : Timeline) (now : Nat)
    (x : String) (hx : ("auto-" ++ toString now) ≠ x) :
    findA (createAutoCheckpointIfNeeded opts tl now).checkpoints x =
      findA tl.checkpoints x := by
  unfold createAutoCheckpointIfNeeded
  rcases opts.autoCheckpointInterval with _ | interval
  · rfl
  · dsimp only
    split
    · rfl
    · split
      · exact findA_setA_ne _ _ _ _ (Ne.symm hx)
      · rfl

/-- Which operations can (re)bind a given checkpoint name: an explicit
`createCheckpoint` with that name, or an `addNode` whose auto-checkpoint would
be given that (time-derived) name. -/
def BindsName : Op → String → Prop
  | Op.createCheckpoint name, x => name = x
  | Op.addNode _ now, x => ("auto-" ++ toString now) = x
  | _, _ => False

theorem step_checkpoint_preserve (opts : TimelineOptions) (s : TLState) (op : Op)
    (x : String) (hop : ¬BindsName op x) :
    findA (step opts s op).tl.checkpoints x = findA s.tl.checkpoints x := by
  cases op with
  | addNode d now =>
      show findA (addNode opts s d now).1.tl.checkpoints x = _
      have hx : ("auto-" ++ toString now) ≠ x := hop
      cases hab : findA s.tl.branches s.tl.activeBranchId with
      | none => simp only [addNode, hab]
      | some ab =>
          cases han : findA s.tl.nodes s.tl.activeNodeId with
          | none => simp only [addNode, hab, han]
          | some an =>
              simp only [addNode, hab, han]
              exact autoCk_checkpoints_find opts _ now x hx
  | navigateToNode nid =>
      show findA (navigateToNode s nid).1.tl.checkpoints x = _
      cases hn : findA s.tl.nodes nid with
      | none => simp only [navigateToNode, hn]
      | some t =>
          cases hb : findA s.tl.branches t.branchId with
          | none => simp only [navigateToNode, hn, hb]
          | some b => simp only [navigateToNode, hn, hb]
  | createBranch bn bd now =>
      show findA (createBranch opts s bn bd now).1.tl.checkpoints x = _
      cases han : findA s.tl.nodes s.tl.activeNodeId with
      | none => simp only [createBranch, han]
      | some an =>
          simp only [createBranch, han]
          by_cases hcap : maxBranchesOr10 opts ≤ s.tl.branches.length
          · rw [if_pos hcap]
          · rw [if_neg hcap]
  | createCheckpoint name =>
      show findA (createCheckpoint s name).1.tl.checkpoints x = _
      have hx : name ≠ x := hop
      exact findA_setA_ne _ _ _ _ (Ne.symm hx)
  | navigateToCheckpoint name =>
      show findA (navigateToCheckpoint s name).1.tl.checkpoints x = _
      cases hc : findA s.tl.checkpoints name with
      | none => simp only [navigateToCheckpoint, hc]
      | some nid =>
          simp only [navigateToCheckpoint, hc]
          cases hn : findA s.tl.nodes nid with
          | none => simp only [navigateToNode, hn]
          | some t =>
              cases hb : findA s.tl.branches t.branchId with
              | none => simp only [navigateToNode, hn, hb]
              | some b => simp only [navigateToNode, hn, hb]

/-- Nodes are never deleted and a stored node's `branchId` never changes. -/
theorem step_node_stable (opts : TimelineOptions) (s : TLState) (op : Op)
    (nid : Nat) (n : TimelineNode) (hwf : WF s)
    (hn : findA s.tl.nodes nid = some n) :
    ∃ n', findA (step opts s op).tl.nodes nid = some n' ∧ n'.branchId = n.branchId := by
  have hnidlt : nid < s.nextId := hwf.nodeFresh _ (mem_of_findA_eq_some hn)
  cases op with
  | addNode d now =>
      show ∃ n', findA (addNode opts s d now).1.tl.nodes nid = some n' ∧
        n'.branchId = n.branchId
      cases hab : findA s.tl.branches s.tl.activeBranchId with
      | none => exact ⟨n, by simp only [addNode, hab]; exact hn, rfl⟩
      | some ab =>
          cases han : findA s.tl.nodes s.tl.activeNodeId with
          | none => exact ⟨n, by simp only [addNode, hab, han]; exact hn, rfl⟩
          | some an =>
              simp only [addNode, hab, han]
              rw [autoCk_nodes]
              have haid : an.id = s.tl.activeNodeId :=
                hwf.nodeKey _ (mem_of_findA_eq_some han)
              by_cases hnid : nid = an.id
              · refine ⟨{ an with childrenIds := an.childrenIds ++ [s.nextId] }, ?_, ?_⟩
                · rw [findA_setA_ne _ s.nextId nid _ (by omega), hnid]
                  exact findA_setA_self _ _ _
                · show an.branchId = n.branchId
                  rw [hnid, haid] at hn
                  rw [han] at hn
                  injection hn with hn
                  rw [hn]
              · refine ⟨n, ?_, rfl⟩
                rw [findA_setA_ne _ s.nextId nid _ (by omega),
                    findA_setA_ne _ an.id nid _ hnid]
                exact hn
  | navigateToNode nid2 =>
      show ∃ n', findA (navigateToNode s nid2).1.tl.nodes nid = some n' ∧
        n'.branchId = n.branchId
      cases hn2 : findA s.tl.nodes nid2 with
      | none => exact ⟨n, by simp only [navigateToNode, hn2]; exact hn, rfl⟩
      | some t =>
          cases hb : findA s.tl.branches t.branchId with
          | none => exact ⟨n, by simp only [navigateToNode, hn2, hb]; exact hn, rfl⟩
          | some b => exact ⟨n, by simp only [navigateToNode, hn2, hb]; exact hn, rfl⟩
  | createBranch bn bd now =>
      show ∃ n', findA (createBranch opts s bn bd now).1.tl.nodes nid = some n' ∧
        n'.branchId = n.branchId
      cases han : findA s.tl.nodes s.tl.activeNodeId with
      | none => exact ⟨n, by simp only [createBranch, han]; exact hn, rfl⟩
      | some an =>
          by_cases hcap : maxBranchesOr10 opts ≤ s.tl.branches.length
          · exact ⟨n, by simp only [createBranch, han]; rw [if_pos hcap]; exact hn, rfl⟩
          · exact ⟨n, by simp only [createBranch, han]; rw [if_neg hcap]; exact hn, rfl⟩
  | createCheckpoint name =>
      exact ⟨n, hn, rfl⟩
  | navigateToCheckpoint name =>
      show ∃ n', findA (navigateToCheckpoint s name).1.tl.nodes nid = some n' ∧
        n'.branchId = n.branchId
      cases hc : findA s.tl.checkpoints name with
      | none => exact ⟨n, by simp only [navigateToCheckpoint, hc]; exact hn, rfl⟩
      | some nid2 =>
          simp only [navigateToCheckpoint, hc]
          cases hn2 : findA s.tl.nodes nid2 with
          | none => exact ⟨n, by simp only [navigateToNode, hn2]; exact hn, rfl⟩
          | some t =>
              cases hb : findA s.tl.branches t.branchId with
              | none => exact ⟨n, by simp only [navigateToNode, hn2, hb]; exact hn, rfl⟩
              | some b => exact ⟨n, by simp only [navigateToNode, hn2, hb]; exact hn, rfl⟩

/-- Branches are never deleted. -/
theorem step_branch_stable (opts : TimelineOptions) (s : TLState) (op : Op)
    (bid : Nat) (b : TimelineBranch) (hwf : WF s)
    (hb : findA s.tl.branches bid = some b) :
    ∃ b', findA (step opts s op).tl.branches bid = some b' := by
  have hbidlt : bid < s.nextId := hwf.branchFresh _ (mem_of_findA_eq_some hb)
  cases op with
  | addNode d now =>
      show ∃ b', findA (addNode opts s d now).1.tl.branches bid = some b'
      cases hab : findA s.tl.branches s.tl.activeBranchId with
      | none => exact ⟨b, by simp only [addNode, hab]; exact hb⟩
      | some ab =>
          cases han : findA s.tl.nodes s.tl.activeNodeId with
          | none => exact ⟨b, by simp only [addNode, hab, han]; exact hb⟩
          | some an =>
              simp only [addNode, hab, han]
              rw [autoCk_branches]
              by_cases hbid : bid = ab.id
              · refine ⟨{ ab with nodeIds := ab.nodeIds ++ [s.nextId] }, ?_⟩
                rw [hbid]
                exact findA_setA_self _ _ _
              · refine ⟨b, ?_⟩
                rw [findA_setA_ne _ ab.id bid _ hbid]
                exact hb
  | navigateToNode nid2 =>
      show ∃ b', findA (navigateToNode s nid2).1.tl.branches bid = some b'
      cases hn2 : findA s.tl.nodes nid2 with
      | none => exact ⟨b, by simp only [navigateToNode, hn2]; exact hb⟩
      | some t =>
          cases hbt : findA s.tl.branches t.branchId with
          | none => exact ⟨b, by simp only [navigateToNode, hn2, hbt]; exact hb⟩
          | some bt => exact ⟨b, by simp only [navigateToNode, hn2, hbt]; exact hb⟩
  | createBranch bn bd now =>
      show ∃ b', findA (createBranch opts s bn bd now).1.tl.branches bid = some b'
      cases han : findA s.tl.nodes s.tl.activeNodeId with
      | none => exact ⟨b, by simp only [createBranch, han]; exact hb⟩
      | some an =>
          by_cases hcap : maxBranchesOr10 opts ≤ s.tl.branches.length
          · exact ⟨b, by simp only [createBranch, han]; rw [if_pos hcap]; exact hb⟩
          · simp only [createBranch, han]
            rw [if_neg hcap]
            have hgkey : ∀ p : Nat × TimelineBranch,
                ((fun p => if p.1 = s.nextId then p
                  else (p.1, { p.2 with isActive := false })) p).1 = p.1 := by
              intro p
              by_cases hp : p.1 = s.nextId <;> simp [hp]
            refine ⟨{ b with isActive := false }, ?_⟩
            show findA (List.map _ (setA s.tl.branches s.nextId _)) bid = _
            rw [findA_map _ hgkey, findA_setA_ne _ s.nextId bid _ (by omega), hb]
            have hne : ¬bid = s.nextId := by omega
            simp [hne]
  | createCheckpoint name =>
      exact ⟨b, hb⟩
  | navigateToCheckpoint name =>
      show ∃ b', findA (navigateToCheckpoint s name).1.tl.branches bid = some b'
      cases hc : findA s.tl.checkpoints name with
      | none => exact ⟨b, by simp only [navigateToCheckpoint, hc]; exact hb⟩
      | some nid2 =>
          simp only [navigateToCheckpoint, hc]
          cases hn2 : findA s.tl.nodes nid2 with
          | none => exact ⟨b, by simp only [navigateToNode, hn2]; exact hb⟩
          | some t =>
              cases hbt : findA s.tl.branches t.branchId with
              | none => exact ⟨b, by simp only [navigateToNode, hn2, hbt]; exact hb⟩
              | some bt => exact ⟨b, by simp only [navigateToNode, hn2, hbt]; exact hb⟩

/-- Running any sequence of operations that never rebinds the name `x`
preserves the binding of `x`, keeps the bound node in store with an unchanged
`branchId`, and preserves well-formedness. -/
theorem runOps_preserve (opts : TimelineOptions) (x : String) (cpId : Nat) :
    ∀ (ops : List Op) (s : TLState), WF s →
      findA s.tl.checkpoints x = some cpId →
      (∀ op ∈ ops, ¬BindsName op x) →
      ∀ n, findA s.tl.nodes cpId = some n →
      WF (ops.foldl (step opts) s) ∧
      findA (ops.foldl (step opts) s).tl.checkpoints x = some cpId ∧
      ∃ n', findA (ops.foldl (step opts) s).tl.nodes cpId = some n' ∧
        n'.branchId = n.branchId := by
  intro ops
  induction ops with
  | nil =>
      intro s hwf hck hops n hn
      exact ⟨hwf, hck, n, hn, rfl⟩
  | cons op rest ih =>
      intro s hwf hck hops n hn
      have hop : ¬BindsName op x := hops op (List.mem_cons_self op rest)
      have hck1 : findA (step opts s op).tl.checkpoints x = some cpId := by
        rw [step_checkpoint_preserve opts s op x hop]
        exact hck
      obtain ⟨n₁, hn₁, hbid₁⟩ := step_node_stable opts s op cpId n hwf hn
      have hops1 : ∀ op2 ∈ rest, ¬BindsName op2 x :=
        fun op2 hmem => hops op2 (List.mem_cons_of_mem op hmem)
      obtain ⟨hwf2, hck2, n', hn', hbid'⟩ :=
        ih (step opts s op) (wf_step opts s op hwf) hck1 hops1 n₁ hn₁
      exact ⟨hwf2, hck2, n', hn', by rw [hbid', hbid₁]⟩

/-- C2 amended: after `createCheckpoint x` and any sequence of operations that
never rebinds the name `x`, `navigateToCheckpoint x` succeeds, restores
`activeNodeId` to its checkpoint-time value, and sets `activeBranchId` to the
`branchId` stored on the checkpointed node (which is fixed at node creation).
That equals the checkpoint-time `activeBranchId` exactly when the
checkpoint-time active node belonged to the checkpoint-time active branch —
after `createBranch` it does not (see the counterexample). -/
theorem c2_amended (opts : TimelineOptions) (s : TLState) (x : String) (ops : List Op)
    (hwf : WF s) (hops : ∀ op ∈ ops, ¬BindsName op x) :
    ∃ n, findA s.tl.nodes s.tl.activeNodeId = some n ∧
      (navigateToCheckpoint (ops.foldl (step opts) (createCheckpoint s x).1) x).2 = true ∧
      (navigateToCheckpoint
          (ops.foldl (step opts) (createCheckpoint s x).1) x).1.tl.activeNodeId =
        s.tl.activeNodeId ∧
      (navigateToCheckpoint
          (ops.foldl (step opts) (createCheckpoint s x).1) x).1.tl.activeBranchId =
        n.branchId := by
  obtain ⟨n, hn⟩ := hwf.activeNodeEx
  have hwf1 : WF (createCheckpoint s x).1 := wf_createCheckpoint s x hwf
  have hck1 : findA (createCheckpoint s x).1.tl.checkpoints x = some s.tl.activeNodeId :=
    findA_setA_self _ _ _
  have hn1 : findA (createCheckpoint s x).1.tl.nodes s.tl.activeNodeId = some n := hn
  obtain ⟨hwf2, hck2, n', hn', hbid'⟩ :=
    runOps_preserve opts x s.tl.activeNodeId ops (createCheckpoint s x).1
      hwf1 hck1 hops n hn1
  obtain ⟨b, hbfound, _⟩ := hwf2.nodeBranch _ (mem_of_findA_eq_some hn')
  refine ⟨n, hn, ?_, ?_, ?_⟩ <;>
    simp only [navigateToCheckpoint, hck2, navigateToNode, hn', hbfound]
  rw [hbid']

/-- C2 counterexample: fork a branch (cursor stays on the root, active branch
becomes the fork), checkpoint `"x"`, then navigate back to `"x"` immediately:
the active node is restored but `activeBranchId` reverts to the root's own
branch, not the branch that was active when the checkpoint was created. -/
theorem c2_counterexample :
    (navigateToCheckpoint (createCheckpoint exForked "x").1 "x").2 = true ∧
    (navigateToCheckpoint (createCheckpoint exForked "x").1 "x").1.tl.activeNodeId =
      exForked.tl.activeNodeId ∧
    ¬((navigateToCheckpoint (createCheckpoint exForked "x").1 "x").1.tl.activeBranchId =
      exForked.tl.activeBranchId) := by
  refine ⟨by decide, by decide, ?_⟩
  intro hbad
  revert hbad
  decide

/-- Witness for C2 (amended form): the empty intervening sequence on a fresh
timeline. -/
theorem c2_amended_witness :
    ∃ n, findA exTimeline.tl.nodes exTimeline.tl.activeNodeId = some n ∧
      (navigateToCheckpoint
          (([] : List Op).foldl (step defaultOptions) (createCheckpoint exTimeline "x").1)
          "x").2 = true ∧
      (navigateToCheckpoint
          (([] : List Op).foldl (step defaultOptions) (createCheckpoint exTimeline "x").1)
          "x").1.tl.activeNodeId = exTimeline.tl.activeNodeId ∧
      (navigateToCheckpoint
          (([] : List Op).foldl (step defaultOptions) (createCheckpoint exTimeline "x").1)
          "x").1.tl.activeBranchId = n.branchId :=
  c2_amended defaultOptions exTimeline "x" [] (wf_createTimeline "P1" "demo" 0)
    (by intro op hmem; exact absurd hmem (List.not_mem_nil op))

/-- Projections of a successful `addNode`, for stepwise computation. -/
theorem addNode_proj (opts : TimelineOptions) (s : TLState) (d : NodeData) (now : Nat)
    (ab : TimelineBranch) (an : TimelineNode)
    (hab : findA s.tl.branches s.tl.activeBranchId = some ab)
    (han : findA s.tl.nodes s.tl.activeNodeId = some an) :
    (addNode opts s d now).1.tl.nodes =
      setA (setA s.tl.nodes an.id { an with childrenIds := an.childrenIds ++ [s.nextId] })
        s.nextId ⟨s.nextId, now, d.type, d.title, d.description, d.content, some an.id,
          [], s.tl.activeBranchId, an.stepNumber + 1⟩ ∧
    (addNode opts s d now).1.tl.branches =
      setA s.tl.branches ab.id { ab with nodeIds := ab.nodeIds ++ [s.nextId] } ∧
    (addNode opts s d now).1.tl.activeNodeId = s.nextId ∧
    (addNode opts s d now).1.tl.activeBranchId = s.tl.activeBranchId ∧
    (addNode opts s d now).1.nextId = s.nextId + 1 := by
  refine ⟨?_, ?_, ?_, ?_, ?_⟩
  · simp only [addNode, hab, han]
    rw [autoCk_nodes]
  · simp only [addNode, hab, han]
    rw [autoCk_branches]
  · simp only [addNode, hab, han]
    rw [autoCk_activeNodeId]
  · simp only [addNode, hab, han]
    rw [autoCk_activeBranchId]
  · simp only [addNode, hab, han]

/-- C9: on the straight-line history obtained by four `addNode` calls after
`createTimeline` (five nodes, ids 1..5, root 1, leaf 5 = the active node),
`findPathBetweenNodes(root, leaf)` returns a path whose node ids are exactly
`[1, 2, 3, 4, 5]` in root-to-leaf order — all five nodes of the timeline. -/
theorem c9_findPathBetweenNodes_chain (pj dsc : String) (t0 t1 t2 t3 t4 : Nat)
    (d1 d2 d3 d4 : NodeData) (s4 : TLState)
    (h : s4 = (addNode defaultOptions ((addNode defaultOptions ((addNode defaultOptions
      ((addNode defaultOptions (createTimeline pj dsc t0) d1 t1).1) d2 t2).1) d3 t3).1)
      d4 t4).1) :
    keysA s4.tl.nodes = [1, 2, 3, 4, 5] ∧
    s4.tl.activeNodeId = 5 ∧
    (findPathBetweenNodes s4 1 5).map (fun l => l.map TimelineNode.id) =
      some [1, 2, 3, 4, 5] := by
  subst h
  set s0 := createTimeline pj dsc t0 with hs0
  set s1 := (addNode defaultOptions s0 d1 t1).1 with hs1
  set s2 := (addNode defaultOptions s1 d2 t2).1 with hs2
  set s3 := (addNode defaultOptions s2 d3 t3).1 with hs3
  set s4 := (addNode defaultOptions s3 d4 t4).1 with hs4
  have h0n : s0.tl.nodes = [(1, ⟨1, t0, NodeType.plan, "Project Initialization", dsc,
      "Project initialized with description: " ++ dsc, none, [], 0, 1⟩)] := rfl
  have h0b : s0.tl.branches = [(0, ⟨0, "Main", "Main development branch", t0, [1], true,
      none, none⟩)] := rfl
  have h0an : s0.tl.activeNodeId = 1 := rfl
  have h0ab : s0.tl.activeBranchId = 0 := rfl
  have h0x : s0.nextId = 2 := rfl
  obtain ⟨h1n, h1b, h1an, h1ab, h1x⟩ := addNode_proj defaultOptions s0 d1 t1
    ⟨0, "Main", "Main development branch", t0, [1], true, none, none⟩
    ⟨1, t0, NodeType.plan, "Project Initialization", dsc,
      "Project initialized with description: " ++ dsc, none, [], 0, 1⟩
    (by rw [h0b, h0ab]; simp [findA]) (by rw [h0n, h0an]; simp [findA])
  rw [← hs1] at h1n h1b h1an h1ab h1x
  rw [h0n, h0ab, h0x] at h1n
  rw [h0b, h0x] at h1b
  rw [h0x] at h1an h1x
  rw [h0ab] at h1ab
  simp only [setA] at h1n h1b
  norm_num at h1n h1b h1x
  obtain ⟨h2n, h2b, h2an, h2ab, h2x⟩ := addNode_proj defaultOptions s1 d2 t2
    ⟨0, "Main", "Main development branch", t0, [1, 2], true, none, none⟩
    ⟨2, t1, d1.type, d1.title, d1.description, d1.content, some 1, [], 0, 2⟩
    (by rw [h1b, h1ab]; simp [findA]) (by rw [h1n, h1an]; simp [findA])
  rw [← hs2] at h2n h2b h2an h2ab h2x
  rw [h1n, h1ab, h1x] at h2n
  rw [h1b, h1x] at h2b
  rw [h1x] at h2an h2x
  rw [h1ab] at h2ab
  simp only [setA] at h2n h2b
  norm_num at h2n h2b h2x
  obtain ⟨h3n, h3b, h3an, h3ab, h3x⟩ := addNode_proj defaultOptions s2 d3 t3
    ⟨0, "Main", "Main development branch", t0, [1, 2, 3], true, none, none⟩
    ⟨3, t2, d2.type, d2.title, d2.description, d2.content, some 2, [], 0, 3⟩
    (by rw [h2b, h2ab]; simp [findA]) (by rw [h2n, h2an]; simp [findA])
  rw [← hs3] at h3n h3b h3an h3ab h3x
  rw [h2n, h2ab, h2x] at h3n
  rw [h2b, h2x] at h3b
  rw [h2x] at h3an h3x
  rw [h2ab] at h3ab
  simp only [setA] at h3n h3b
  norm_num at h3n h3b h3x
  obtain ⟨h4n, h4b, h4an, h4ab, h4x⟩ := addNode_proj defaultOptions s3 d4 t4
    ⟨0, "Main", "Main development branch", t0, [1, 2, 3, 4], true, none, none⟩
    ⟨4, t3, d3.type, d3.title, d3.description, d3.content, some 3, [], 0, 4⟩
    (by rw [h3b, h3ab]; simp [findA]) (by rw [h3n, h3an]; simp [findA])
  rw [← hs4] at h4n h4b h4an h4ab h4x
  rw [h3n, h3ab, h3x] at h4n
  rw [h3b, h3x] at h4b
  rw [h3x] at h4an h4x
  rw [h3ab] at h4ab
  simp only [setA] at h4n h4b
  norm_num at h4n h4b h4x
  clear hs1 hs2 hs3 hs4
  clear_value s4 s3 s2 s1 s0
  refine ⟨?_, h4an, ?_⟩
  · rw [h4n]
    rfl
  · have hfuel : findPathFuel s4.tl = 10 := by
      rw [findPathFuel, h4n]
      rfl
    show (findPathAux s4.tl 5 [(1, [])] [] (findPathFuel s4.tl)).map
      (fun l => l.map TimelineNode.id) = some [1, 2, 3, 4, 5]
    rw [hfuel]
    simp [findPathAux, findA, h4n]

/-- Witness for C9: the chain theorem at concrete inputs. -/
theorem c9_findPathBetweenNodes_chain_witness :
    keysA ((addNode defaultOptions ((addNode defaultOptions ((addNode defaultOptions
      ((addNode defaultOptions (createTimeline "P" "d" 0) exData 0).1) exData 0).1)
      exData 0).1) exData 0).1).tl.nodes = [1, 2, 3, 4, 5] ∧
    ((addNode defaultOptions ((addNode defaultOptions ((addNode defaultOptions
      ((addNode defaultOptions (createTimeline "P" "d" 0) exData 0).1) exData 0).1)
      exData 0).1) exData 0).1).tl.activeNodeId = 5 ∧
    (findPathBetweenNodes ((addNode defaultOptions ((addNode defaultOptions ((addNode
      defaultOptions ((addNode defaultOptions (createTimeline "P" "d" 0) exData 0).1)
      exData 0).1) exData 0).1) exData 0).1) 1 5).map
        (fun l => l.map TimelineNode.id) = some [1, 2, 3, 4, 5] :=
  c9_findPathBetweenNodes_chain "P" "d" 0 0 0 0 0 exData exData exData exData _ rfl
